import Mathlib

/-!
# Verification of the reinforcement-loop code-generation core

Shallow embedding of the TypeScript sources of the repository
(`Reinforcementloop.ts`, i.e. the reinforcement-loop edge function together
with the smart-handler evaluation function contained in the same file).

Conventions of the embedding:
* JS numbers that carry test scores are modelled as rationals.
* JS strings are Lean `String`s; the character-level helpers work on
  `List Char` and are wrapped at the `String` level.
* Calls to external services (the model-generation endpoint, the Judge0
  execution sandbox, the database) are modelled as explicit inputs:
  per-attempt outcomes, per-test submission results, and an explicit
  database value threaded through the functions.
-/

namespace Codegen

/-- JS whitespace for the purposes of `String.prototype.trim`
(ASCII subset: space, tab, newline, carriage return, vertical tab, form feed). -/
def isJsWs (c : Char) : Bool :=
  c = ' ' || c = '\t' || c = '\n' || c = '\r' || c = '\x0b' || c = '\x0c'

/-- Drop leading JS whitespace. -/
def jsTrimLeftL (l : List Char) : List Char := l.dropWhile isJsWs

/-- Drop trailing JS whitespace. -/
def jsTrimRightL (l : List Char) : List Char := (l.reverse.dropWhile isJsWs).reverse

/-- Model of JS `String.prototype.trim` on character lists. -/
def jsTrimL (l : List Char) : List Char := jsTrimRightL (jsTrimLeftL l)

/-- Model of JS `String.prototype.trim`. -/
def jsTrim (s : String) : String := ⟨jsTrimL s.data⟩

/--
`determineImprovementStrategy` (source `Reinforcementloop.ts` lines 531-537):
classifies an improvement from the score delta and the new success rate.
-/
def determineImprovementStrategy (improvement : ℚ) (successRate : ℚ) : String :=
  if successRate = 100 then "problem_solved"
  else if improvement ≥ 50 then "major_algorithm_fix"
  else if improvement ≥ 20 then "significant_bug_fix"
  else if improvement > 0 then "minor_improvement"
  else "no_improvement"

/-- C8: the improvement classifier is a deterministic function of
(delta, new score): `problem_solved` when the new score is 100, else
`major_algorithm_fix` when the delta is at least 50, else
`significant_bug_fix` when the delta is at least 20, else
`minor_improvement` when the delta is positive, and `no_improvement`
otherwise. -/
theorem C8_improvement_classifier (d s : ℚ) :
    (s = 100 → determineImprovementStrategy d s = "problem_solved") ∧
    (s ≠ 100 → 50 ≤ d → determineImprovementStrategy d s = "major_algorithm_fix") ∧
    (s ≠ 100 → d < 50 → 20 ≤ d → determineImprovementStrategy d s = "significant_bug_fix") ∧
    (s ≠ 100 → d < 20 → 0 < d → determineImprovementStrategy d s = "minor_improvement") ∧
    (s ≠ 100 → d ≤ 0 → determineImprovementStrategy d s = "no_improvement") := by
  refine ⟨fun h => ?_, fun h h50 => ?_, fun h h50 h20 => ?_, fun h h20 h0 => ?_, fun h h0 => ?_⟩ <;>
    unfold determineImprovementStrategy <;>
    split_ifs with h1 h2 h3 h4 <;>
    first
      | rfl
      | (exfalso; first | exact h h1 | exact h1 h | linarith)

/-- Witness for C8 at concrete inputs. -/
theorem C8_improvement_classifier_witness :
    determineImprovementStrategy 30 100 = "problem_solved" ∧
    determineImprovementStrategy 30 90 = "significant_bug_fix" :=
  ⟨(C8_improvement_classifier 30 100).1 rfl,
   (C8_improvement_classifier 30 90).2.2.1 (by norm_num) (by norm_num) (by norm_num)⟩

/-! ## JSON values

The smart-handler compares test outputs via `JSON.stringify` / `JSON.parse`.
We model the JSON values that occur in this system (the problem corpus uses
numbers, strings, booleans, nulls and arrays; JSON objects are not used by
the stored test cases and are not modelled). -/

mutual

inductive JSValue where
  | null : JSValue
  | bool (b : Bool) : JSValue
  | num (q : ℚ) : JSValue
  | str (s : String) : JSValue
  | arr (xs : JSList) : JSValue
deriving DecidableEq

inductive JSList where
  | nil : JSList
  | cons (hd : JSValue) (tl : JSList) : JSList
deriving DecidableEq

end

/-- Convert a Lean list of JSON values into a `JSList`. -/
def JSList.ofList : List JSValue → JSList
  | [] => .nil
  | v :: vs => .cons v (JSList.ofList vs)

/-- Decimal digits of a natural number, most significant first. -/
def natDigitsAux (n : ℕ) (acc : List Char) : List Char :=
  if h : n < 10 then Char.ofNat (48 + n) :: acc
  else natDigitsAux (n / 10) (Char.ofNat (48 + n % 10) :: acc)
termination_by n
decreasing_by exact Nat.div_lt_self (by omega) (by omega)

def natDigits (n : ℕ) : List Char := natDigitsAux n []

/-- Decimal representation of an integer. -/
def intRepr (i : ℤ) : List Char :=
  if i < 0 then '-' :: natDigits i.natAbs else natDigits i.natAbs

/-- Rendering of a JS number.  IEEE-754 shortest-round-trip formatting is not
modelled; all that the pass/fail comparison downstream relies on is that a
rendered number ends in a decimal digit, which holds for the real JS
rendering as well.  Integers are rendered exactly; for non-integral
rationals we render numerator and denominator around a dot. -/
def stringifyNum (q : ℚ) : List Char :=
  if q.den = 1 then intRepr q.num
  else intRepr q.num ++ '.' :: natDigits q.den

/-- Join character-list fragments with a comma separator. -/
def joinCommaL : List (List Char) → List Char
  | [] => []
  | [x] => x
  | x :: xs => x ++ ',' :: joinCommaL xs

/-- JSON string escaping for one character (common escapes). -/
def escapeChar (c : Char) : List Char :=
  if c = '"' then ['\\', '"']
  else if c = '\\' then ['\\', '\\']
  else if c = '\n' then ['\\', 'n']
  else if c = '\t' then ['\\', 't']
  else if c = '\r' then ['\\', 'r']
  else [c]

mutual

/-- Model of `JSON.stringify` (character-list level). -/
def stringifyL : JSValue → List Char
  | .null => "null".data
  | .bool true => "true".data
  | .bool false => "false".data
  | .num q => stringifyNum q
  | .str s => '"' :: s.data.bind escapeChar ++ ['"']
  | .arr xs => '[' :: stringifyItems xs ++ [']']

/-- Comma-separated renderings of the elements of a JSON array. -/
def stringifyItems : JSList → List Char
  | .nil => []
  | .cons x tl =>
      stringifyL x ++
        (match tl with
         | .nil => []
         | .cons _ _ => ',' :: stringifyItems tl)

end

/-- Model of `JSON.stringify`. -/
def stringifyJS (v : JSValue) : String := ⟨stringifyL v⟩

theorem natDigitsAux_digits (n : ℕ) (acc : List Char) :
    ∃ l, natDigitsAux n acc = l ++ acc ∧ l ≠ [] ∧ ∀ c ∈ l, c.isDigit := by
  induction n using Nat.strong_induction_on generalizing acc with
  | _ n ih =>
    rw [natDigitsAux]
    by_cases h : n < 10
    · refine ⟨[Char.ofNat (48 + n)], by simp [h], by simp, ?_⟩
      intro c hc
      simp only [List.mem_singleton] at hc
      subst hc
      interval_cases n <;> decide
    · simp only [h, dite_false]
      obtain ⟨l, hl, hne, hdig⟩ :=
        ih (n / 10) (Nat.div_lt_self (by omega) (by omega)) (Char.ofNat (48 + n % 10) :: acc)
      refine ⟨l ++ [Char.ofNat (48 + n % 10)], by simp [hl], by simp, ?_⟩
      intro c hc
      rcases List.mem_append.1 hc with h1 | h2
      · exact hdig c h1
      · simp only [List.mem_singleton] at h2
        subst h2
        have : n % 10 < 10 := Nat.mod_lt _ (by omega)
        interval_cases h : (n % 10) <;> decide

theorem natDigits_last (n : ℕ) :
    ∃ c, (natDigits n).getLast? = some c ∧ c.isDigit := by
  obtain ⟨l, hl, hne, hdig⟩ := natDigitsAux_digits n []
  rw [natDigits, hl]
  refine ⟨l.getLast hne, ?_, hdig _ (List.getLast_mem hne)⟩
  simp [List.getLast?_eq_getLast _ hne]

/-- Helper: the last element of `l₁ ++ (l₂ ++ [a])` is `a`. -/
theorem lastOf_append_concat {α : Type} (l₁ l₂ : List α) (a : α) :
    (l₁ ++ (l₂ ++ [a])).getLast? = some a := by
  rw [← List.append_assoc, List.getLast?_concat]

/-- Helper: the last element of `b :: (l ++ [a])` is `a`. -/
theorem lastOf_cons_concat {α : Type} (b a : α) (l : List α) :
    (b :: (l ++ [a])).getLast? = some a := by
  rw [← List.cons_append, List.getLast?_concat]

theorem intRepr_last (i : ℤ) :
    ∃ c, (intRepr i).getLast? = some c ∧ c.isDigit := by
  obtain ⟨c, hc, hdig⟩ := natDigits_last i.natAbs
  unfold intRepr
  by_cases h : i < 0
  · simp only [h, if_true]
    refine ⟨c, ?_, hdig⟩
    rcases (natDigits i.natAbs).eq_nil_or_concat with hnil | ⟨l, a, hla⟩
    · rw [hnil] at hc; simp at hc
    · rw [hla] at hc ⊢
      rw [List.concat_eq_append] at hc ⊢
      rw [lastOf_cons_concat]
      rw [List.getLast?_concat] at hc
      exact hc
  · simp only [h, if_false]
    exact ⟨c, hc, hdig⟩

theorem stringifyNum_last (q : ℚ) :
    ∃ c, (stringifyNum q).getLast? = some c ∧ c.isDigit := by
  unfold stringifyNum
  by_cases h : q.den = 1
  · simp only [h, if_true]
    exact intRepr_last q.num
  · simp only [h, if_false]
    obtain ⟨c, hc, hdig⟩ := natDigits_last q.den
    refine ⟨c, ?_, hdig⟩
    rcases (natDigits q.den).eq_nil_or_concat with hnil | ⟨l, a, hla⟩
    · rw [hnil] at hc; simp at hc
    · rw [hla] at hc ⊢
      rw [List.concat_eq_append] at hc ⊢
      rw [List.getLast?_concat] at hc
      rw [← List.cons_append, lastOf_append_concat]
      exact hc

/-- The last character of any rendered JSON value is never the letter `t`
(it is a digit, a quote, a bracket, or the last letter of a literal). -/
theorem stringifyL_last_ne_t (v : JSValue) : (stringifyL v).getLast? ≠ some 't' := by
  cases v with
  | null => decide
  | bool b => cases b <;> decide
  | num q =>
    obtain ⟨c, hc, hdig⟩ := stringifyNum_last q
    simp only [stringifyL, hc]
    intro h
    rw [Option.some_inj] at h
    subst h
    exact absurd hdig (by decide)
  | str s =>
    simp only [stringifyL, ← List.cons_append]
    rw [List.getLast?_concat]
    decide
  | arr xs =>
    simp only [stringifyL, ← List.cons_append]
    rw [List.getLast?_concat]
    decide

/-! ## A model of `JSON.parse`

The smart-handler calls `JSON.parse` on the trimmed stdout of a submission
and falls back to plain string comparison when parsing throws.  We model the
parser as a fuel-indexed recursive-descent parser over the JSON value
grammar used by this system.  The parser is deliberately slightly lenient
(leading zeros in numbers are accepted, unicode escapes are kept literal);
everything proved about it only uses the shape of a successful parse. -/

/-- JSON whitespace. -/
def isJsonWs (c : Char) : Bool := c = ' ' || c = '\t' || c = '\n' || c = '\r'

/-- Skip JSON whitespace. -/
def skipJsonWs (cs : List Char) : List Char := cs.dropWhile isJsonWs

/-- Interpretation of a character following a backslash in a JSON string. -/
def escMap (c : Char) : Char :=
  if c = 'n' then '\n'
  else if c = 't' then '\t'
  else if c = 'r' then '\r'
  else if c = 'b' then '\x08'
  else if c = 'f' then '\x0c'
  else c

/-- Scan the body of a JSON string after the opening quote; the flag records
whether the previous character was an unprocessed backslash.  Returns the
decoded content and the remainder after the closing quote. -/
def parseStrRun : Bool → List Char → Option (List Char × List Char)
  | _, [] => none
  | true, c :: rest =>
      (match parseStrRun false rest with
       | some (s, r) => some (escMap c :: s, r)
       | none => none)
  | false, c :: rest =>
      if c = '"' then some ([], rest)
      else if c = '\\' then parseStrRun true rest
      else
        match parseStrRun false rest with
        | some (s, r) => some (c :: s, r)
        | none => none

/-- Parse the body of a JSON string after the opening quote. -/
def parseStrBody (cs : List Char) : Option (List Char × List Char) :=
  parseStrRun false cs

/-- Parse a nonempty run of decimal digits. -/
def parseDigits (cs : List Char) : Option (List Char × List Char) :=
  if (cs.takeWhile Char.isDigit).isEmpty then none
  else some (cs.takeWhile Char.isDigit, cs.dropWhile Char.isDigit)

/-- Numeric value of a digit run. -/
def digitsToNat (ds : List Char) : ℕ := ds.foldl (fun n c => 10 * n + (c.toNat - 48)) 0

/-- Optional fractional part `.digits`; identity on the input when absent. -/
def parseFracTail : List Char → ℚ × List Char
  | c :: t =>
      if c = '.' then
        match parseDigits t with
        | some (fs, r) => ((digitsToNat fs : ℚ) / (10 : ℚ) ^ fs.length, r)
        | none => (0, c :: t)
      else (0, c :: t)
  | [] => (0, [])

/-- Sign and digits of an exponent; falls back (with exponent 0) when the
tail after the `e` marker is not a signed digit run. -/
def parseExpDigits : List Char → List Char → ℤ × List Char
  | c :: t2, fallback =>
      if c = '+' then
        match parseDigits t2 with
        | some (ds, r) => ((digitsToNat ds : ℤ), r)
        | none => (0, fallback)
      else if c = '-' then
        match parseDigits t2 with
        | some (ds, r) => (-(digitsToNat ds : ℤ), r)
        | none => (0, fallback)
      else
        match parseDigits (c :: t2) with
        | some (ds, r) => ((digitsToNat ds : ℤ), r)
        | none => (0, fallback)
  | [], fallback => (0, fallback)

/-- Optional exponent part `e[+-]digits`; identity on the input when absent. -/
def parseExpTail : List Char → ℤ × List Char
  | c :: t =>
      if c = 'e' ∨ c = 'E' then parseExpDigits t (c :: t)
      else (0, c :: t)
  | [] => (0, [])

/-- Optional leading minus sign. -/
def parseSign : List Char → Bool × List Char
  | c :: t => if c = '-' then (true, t) else (false, c :: t)
  | [] => (false, [])

/-- Parse a JSON number. -/
def parseNumCore (cs : List Char) : Option (ℚ × List Char) :=
  match parseDigits (parseSign cs).2 with
  | none => none
  | some (ds, r1) =>
      let fr := parseFracTail r1
      let ex := parseExpTail fr.2
      let mag : ℚ := ((digitsToNat ds : ℚ) + fr.1) * (10 : ℚ) ^ ex.1
      some (if (parseSign cs).1 then -mag else mag, ex.2)

mutual

/-- Parse one JSON value (fuel-indexed). -/
def parseVal : ℕ → List Char → Option (JSValue × List Char)
  | 0, _ => none
  | fuel + 1, cs =>
    match cs with
    | 't' :: 'r' :: 'u' :: 'e' :: rest => some (.bool true, rest)
    | 'f' :: 'a' :: 'l' :: 's' :: 'e' :: rest => some (.bool false, rest)
    | 'n' :: 'u' :: 'l' :: 'l' :: rest => some (.null, rest)
    | '"' :: rest =>
        (match parseStrBody rest with
         | some (s, r) => some (.str ⟨s⟩, r)
         | none => none)
    | '[' :: rest =>
        (match skipJsonWs rest with
         | ']' :: r => some (.arr .nil, r)
         | cs1 =>
             match parseElems fuel cs1 with
             | some (vs, r) => some (.arr vs, r)
             | none => none)
    | _ =>
        (match parseNumCore cs with
         | some (q, r) => some (.num q, r)
         | none => none)

/-- Parse the comma-separated elements of an array up to and including the
closing bracket (fuel-indexed). -/
def parseElems : ℕ → List Char → Option (JSList × List Char)
  | 0, _ => none
  | fuel + 1, cs =>
    match parseVal fuel cs with
    | some (v, r1) =>
        (match skipJsonWs r1 with
         | ',' :: r2 =>
             (match parseElems fuel (skipJsonWs r2) with
              | some (vs, r3) => some (.cons v vs, r3)
              | none => none)
         | ']' :: r2 => some (.cons v .nil, r2)
         | _ => none)
    | none => none

end

/-- Model of `JSON.parse` on character lists: one value surrounded by
optional whitespace. -/
def jsonParseL (cs : List Char) : Option JSValue :=
  match parseVal (cs.length + 1) (skipJsonWs cs) with
  | some (v, rest) => if (skipJsonWs rest).isEmpty then some v else none
  | none => none

/-- Model of `JSON.parse`. -/
def jsonParse (s : String) : Option JSValue := jsonParseL s.data



/-- Characters on which a successful JSON value parse can end. -/
def isJsonEndCh (c : Char) : Bool :=
  c.isDigit || c = 'l' || c = 'e' || c = '"' || c = ']'

theorem lastOf_append_ne {α : Type} (l₁ : List α) {l₂ : List α} (h : l₂ ≠ []) :
    (l₁ ++ l₂).getLast? = l₂.getLast? :=
  List.getLast?_append_of_ne_nil _ h

theorem ne_nil_of_getLast? {α : Type} {l : List α} {c : α} (h : l.getLast? = some c) :
    l ≠ [] := by
  intro hn; rw [hn] at h; simp at h

theorem getLast?_cons_ne {α : Type} (a : α) {l : List α} (h : l ≠ []) :
    (a :: l).getLast? = l.getLast? := by
  have h2 : a :: l = [a] ++ l := rfl
  rw [h2, lastOf_append_ne _ h]

theorem skipJsonWs_decomp (cs : List Char) :
    ∃ w, cs = w ++ skipJsonWs cs ∧ ∀ c ∈ w, isJsonWs c :=
  ⟨cs.takeWhile isJsonWs, (List.takeWhile_append_dropWhile _ _).symm,
   fun _ hc => List.mem_takeWhile_imp hc⟩

theorem parseStrRun_consumed :
    ∀ cs b s r, parseStrRun b cs = some (s, r) →
      ∃ pre, cs = pre ++ r ∧ pre.getLast? = some '"' := by
  intro cs
  induction cs with
  | nil =>
      intro b s r h
      cases b <;> exact Option.noConfusion h
  | cons c rest ih =>
      intro b s r h
      cases b with
      | true =>
          have hred : parseStrRun true (c :: rest) =
              (match parseStrRun false rest with
               | some (s, r) => some (escMap c :: s, r)
               | none => none) := rfl
          rw [hred] at h
          rcases hrec : parseStrRun false rest with _ | ⟨s0, r0⟩ <;> rw [hrec] at h
          · exact Option.noConfusion h
          · rw [Option.some_inj, Prod.mk.injEq] at h
            obtain ⟨pre0, hsp, hl⟩ := ih false s0 r0 hrec
            refine ⟨c :: pre0, ?_, ?_⟩
            · rw [← h.2, hsp]; rfl
            · rw [getLast?_cons_ne _ (ne_nil_of_getLast? hl)]; exact hl
      | false =>
          by_cases hq : c = '"'
          · subst hq
            have hred : parseStrRun false ('"' :: rest) = some ([], rest) := rfl
            rw [hred, Option.some_inj, Prod.mk.injEq] at h
            exact ⟨['"'], by rw [← h.2]; rfl, rfl⟩
          · by_cases hb : c = '\\'
            · subst hb
              have hred : parseStrRun false ('\\' :: rest) = parseStrRun true rest := rfl
              rw [hred] at h
              obtain ⟨pre0, hsp, hl⟩ := ih true s r h
              refine ⟨'\\' :: pre0, ?_, ?_⟩
              · rw [hsp]; rfl
              · rw [getLast?_cons_ne _ (ne_nil_of_getLast? hl)]; exact hl
            · simp only [parseStrRun] at h
              rw [if_neg hq, if_neg hb] at h
              rcases hrec : parseStrRun false rest with _ | ⟨s0, r0⟩ <;> rw [hrec] at h
              · exact Option.noConfusion h
              · rw [Option.some_inj, Prod.mk.injEq] at h
                obtain ⟨pre0, hsp, hl⟩ := ih false s0 r0 hrec
                refine ⟨c :: pre0, ?_, ?_⟩
                · rw [← h.2, hsp]; rfl
                · rw [getLast?_cons_ne _ (ne_nil_of_getLast? hl)]; exact hl

theorem parseStrBody_consumed {cs s r : List Char} (h : parseStrBody cs = some (s, r)) :
    ∃ pre, cs = pre ++ r ∧ pre.getLast? = some '"' :=
  parseStrRun_consumed cs false s r h

theorem parseDigits_consumed {cs ds r : List Char} (h : parseDigits cs = some (ds, r)) :
    cs = ds ++ r ∧ ∃ c, ds.getLast? = some c ∧ c.isDigit := by
  unfold parseDigits at h
  by_cases he : (cs.takeWhile Char.isDigit).isEmpty
  · rw [if_pos he] at h
    exact Option.noConfusion h
  · rw [if_neg he, Option.some_inj, Prod.mk.injEq] at h
    obtain ⟨hds, hr⟩ := h
    subst hds; subst hr
    have hne : cs.takeWhile Char.isDigit ≠ [] := by
      simpa [List.isEmpty_iff] using he
    refine ⟨(List.takeWhile_append_dropWhile _ _).symm, (cs.takeWhile Char.isDigit).getLast hne,
      by simp [List.getLast?_eq_getLast _ hne], ?_⟩
    exact List.mem_takeWhile_imp (List.getLast_mem hne)


/-- What `parseFracTail` consumes either is nothing or ends in a digit. -/
theorem parseFracTail_consumed (cs : List Char) :
    (parseFracTail cs).2 = cs ∨
      ∃ pre c, cs = pre ++ (parseFracTail cs).2 ∧ pre.getLast? = some c ∧ c.isDigit := by
  cases cs with
  | nil => exact Or.inl rfl
  | cons c t =>
      simp only [parseFracTail]
      by_cases hc : c = '.'
      · rw [if_pos hc]
        rcases hpd : parseDigits t with _ | ⟨fs, r⟩
        · exact Or.inl rfl
        · obtain ⟨hsp, d, hl, hd⟩ := parseDigits_consumed hpd
          refine Or.inr ⟨c :: fs, d, ?_, ?_, hd⟩
          · rw [hsp]
            rfl
          · rw [getLast?_cons_ne _ (ne_nil_of_getLast? hl)]
            exact hl
      · rw [if_neg hc]
        exact Or.inl rfl

/-- What `parseExpDigits` consumes either is nothing (the fallback) or ends
in a digit. -/
theorem parseExpDigits_consumed (cs fallback : List Char) :
    (parseExpDigits cs fallback).2 = fallback ∨
      ∃ pre c, cs = pre ++ (parseExpDigits cs fallback).2 ∧
        pre.getLast? = some c ∧ c.isDigit := by
  cases cs with
  | nil => exact Or.inl rfl
  | cons c t2 =>
      simp only [parseExpDigits]
      by_cases hp : c = '+'
      · rw [if_pos hp]
        rcases hpd : parseDigits t2 with _ | ⟨ds, r⟩
        · exact Or.inl rfl
        · obtain ⟨hsp, d, hl, hd⟩ := parseDigits_consumed hpd
          refine Or.inr ⟨c :: ds, d, by rw [hsp]; rfl, ?_, hd⟩
          rw [getLast?_cons_ne _ (ne_nil_of_getLast? hl)]
          exact hl
      · rw [if_neg hp]
        by_cases hm : c = '-'
        · rw [if_pos hm]
          rcases hpd : parseDigits t2 with _ | ⟨ds, r⟩
          · exact Or.inl rfl
          · obtain ⟨hsp, d, hl, hd⟩ := parseDigits_consumed hpd
            refine Or.inr ⟨c :: ds, d, by rw [hsp]; rfl, ?_, hd⟩
            rw [getLast?_cons_ne _ (ne_nil_of_getLast? hl)]
            exact hl
        · rw [if_neg hm]
          rcases hpd : parseDigits (c :: t2) with _ | ⟨ds, r⟩
          · exact Or.inl rfl
          · obtain ⟨hsp, d, hl, hd⟩ := parseDigits_consumed hpd
            exact Or.inr ⟨ds, d, by rw [← hsp], hl, hd⟩

/-- What `parseExpTail` consumes either is nothing or ends in a digit. -/
theorem parseExpTail_consumed (cs : List Char) :
    (parseExpTail cs).2 = cs ∨
      ∃ pre c, cs = pre ++ (parseExpTail cs).2 ∧ pre.getLast? = some c ∧ c.isDigit := by
  cases cs with
  | nil => exact Or.inl rfl
  | cons c t =>
      simp only [parseExpTail]
      by_cases he : c = 'e' ∨ c = 'E'
      · rw [if_pos he]
        rcases parseExpDigits_consumed t (c :: t) with hfb | ⟨pre, d, hsp, hl, hd⟩
        · exact Or.inl hfb
        · refine Or.inr ⟨c :: pre, d, ?_, ?_, hd⟩
          · rw [List.cons_append, ← hsp]
          · rw [getLast?_cons_ne _ (ne_nil_of_getLast? hl)]
            exact hl
      · rw [if_neg he]
        exact Or.inl rfl

/-- What `parseSign` consumes is at most a minus sign. -/
theorem parseSign_consumed (cs : List Char) :
    (parseSign cs).2 = cs ∨ cs = '-' :: (parseSign cs).2 := by
  cases cs with
  | nil => exact Or.inl rfl
  | cons c t =>
      simp only [parseSign]
      by_cases hm : c = '-'
      · rw [if_pos hm]
        exact Or.inr (by rw [hm])
      · rw [if_neg hm]
        exact Or.inl rfl

/-- A successful number parse consumes a nonempty prefix ending in a digit. -/
theorem parseNumCore_consumed {cs r : List Char} {q : ℚ}
    (h : parseNumCore cs = some (q, r)) :
    ∃ pre c, cs = pre ++ r ∧ pre.getLast? = some c ∧ c.isDigit := by
  unfold parseNumCore at h
  rcases hpd : parseDigits (parseSign cs).2 with _ | ⟨ds, r1⟩ <;> rw [hpd] at h
  · exact Option.noConfusion h
  · simp only [Option.some_inj, Prod.mk.injEq] at h
    have hr : (parseExpTail (parseFracTail r1).2).2 = r := h.2
    obtain ⟨hds, d0, hl0, hd0⟩ := parseDigits_consumed hpd
    -- assemble the consumed prefix from the three stages
    have hfr := parseFracTail_consumed r1
    have hex := parseExpTail_consumed (parseFracTail r1).2
    -- the part of r1 consumed by frac and exp, ending in a digit unless empty
    have htail : r1 = r ∨ ∃ mid d, r1 = mid ++ r ∧ mid.getLast? = some d ∧ d.isDigit := by
      rcases hex with hex0 | ⟨pe, de, hpe, hle, hde⟩
      · rcases hfr with hfr0 | ⟨pf, df, hpf, hlf, hdf⟩
        · left
          rw [← hr, hex0, hfr0]
        · right
          refine ⟨pf, df, ?_, hlf, hdf⟩
          rw [hpf, ← hr, hex0]
      · rcases hfr with hfr0 | ⟨pf, df, hpf, hlf, hdf⟩
        · right
          refine ⟨pe, de, ?_, hle, hde⟩
          rw [← hr, ← hpe, hfr0]
        · right
          refine ⟨pf ++ pe, de, ?_, ?_, hde⟩
          · rw [hpf, hpe, ← hr, List.append_assoc]
          · rw [lastOf_append_ne _ (ne_nil_of_getLast? hle)]
            exact hle
    -- now prepend the sign and the integer digits
    have hsign := parseSign_consumed cs
    rcases htail with ht0 | ⟨mid, d, hmid, hld, hdd⟩
    · rcases hsign with hs0 | hs1
      · refine ⟨ds, d0, ?_, hl0, hd0⟩
        rw [← hs0, hds, ht0]
      · refine ⟨'-' :: ds, d0, ?_, ?_, hd0⟩
        · rw [hs1, hds, ht0]
          rfl
        · rw [getLast?_cons_ne _ (ne_nil_of_getLast? hl0)]
          exact hl0
    · rcases hsign with hs0 | hs1
      · refine ⟨ds ++ mid, d, ?_, ?_, hdd⟩
        · rw [← hs0, hds, hmid, List.append_assoc]
        · rw [lastOf_append_ne _ (ne_nil_of_getLast? hld)]
          exact hld
      · refine ⟨'-' :: (ds ++ mid), d, ?_, ?_, hdd⟩
        · rw [hs1, hds, hmid]
          simp [List.append_assoc]
        · have hne2 : ds ++ mid ≠ [] := by
            simp [ne_nil_of_getLast? hld]
          rw [getLast?_cons_ne _ hne2, lastOf_append_ne _ (ne_nil_of_getLast? hld)]
          exact hld


/-- Joint consumption shape for `parseVal` and `parseElems`: a successful
parse consumes a nonempty prefix ending in a closing character. -/
theorem parse_consumed (fuel : ℕ) :
    (∀ cs v r, parseVal fuel cs = some (v, r) →
      ∃ pre c, cs = pre ++ r ∧ pre.getLast? = some c ∧ isJsonEndCh c) ∧
    (∀ cs vs r, parseElems fuel cs = some (vs, r) →
      ∃ pre, cs = pre ++ r ∧ pre.getLast? = some ']') := by
  induction fuel with
  | zero =>
      exact ⟨fun cs v r h => Option.noConfusion h, fun cs vs r h => Option.noConfusion h⟩
  | succ n ih =>
      obtain ⟨ihV, ihE⟩ := ih
      constructor
      · intro cs v r h
        simp only [parseVal] at h
        split at h
        · -- true
          rw [Option.some_inj, Prod.mk.injEq] at h
          refine ⟨"true".data, 'e', ?_, rfl, by decide⟩
          rw [← h.2]
          rfl
        · -- false
          rw [Option.some_inj, Prod.mk.injEq] at h
          refine ⟨"false".data, 'e', ?_, rfl, by decide⟩
          rw [← h.2]
          rfl
        · -- null
          rw [Option.some_inj, Prod.mk.injEq] at h
          refine ⟨"null".data, 'l', ?_, rfl, by decide⟩
          rw [← h.2]
          rfl
        · -- string
          rename_i rest
          rcases hps : parseStrBody rest with _ | ⟨s0, r0⟩ <;> simp only [hps] at h
          · exact Option.noConfusion h
          · rw [Option.some_inj, Prod.mk.injEq] at h
            obtain ⟨pre0, hsp0, hl0⟩ := parseStrBody_consumed hps
            refine ⟨'"' :: pre0, '"', ?_, ?_, by decide⟩
            · rw [← h.2, hsp0]
              rfl
            · rw [getLast?_cons_ne _ (ne_nil_of_getLast? hl0)]
              exact hl0
        · -- array
          rename_i rest
          split at h
          · -- immediately closed
            rename_i r0 heq
            rw [Option.some_inj, Prod.mk.injEq] at h
            obtain ⟨w, hw, _⟩ := skipJsonWs_decomp rest
            rw [heq] at hw
            refine ⟨'[' :: (w ++ [']']), ']', ?_, ?_, by decide⟩
            · rw [← h.2, hw]
              simp
            · rw [getLast?_cons_ne _ (by simp), List.getLast?_concat]
          · -- at least one element
            rcases hpe : parseElems n (skipJsonWs rest) with _ | ⟨vs0, r0⟩ <;>
              simp only [hpe] at h
            · exact Option.noConfusion h
            · rw [Option.some_inj, Prod.mk.injEq] at h
              obtain ⟨pre1, hsp1, hl1⟩ := ihE _ vs0 r0 hpe
              obtain ⟨w, hw, _⟩ := skipJsonWs_decomp rest
              rw [hsp1] at hw
              refine ⟨'[' :: (w ++ pre1), ']', ?_, ?_, by decide⟩
              · rw [← h.2, hw]
                simp
              · rw [getLast?_cons_ne _ (by simp [ne_nil_of_getLast? hl1]),
                  lastOf_append_ne _ (ne_nil_of_getLast? hl1)]
                exact hl1
        · -- number
          rcases hpn : parseNumCore cs with _ | ⟨q0, r0⟩ <;> simp only [hpn] at h
          · exact Option.noConfusion h
          · rw [Option.some_inj, Prod.mk.injEq] at h
            obtain ⟨pre0, c0, hsp0, hl0, hd0⟩ := parseNumCore_consumed hpn
            refine ⟨pre0, c0, ?_, hl0, by simp [isJsonEndCh, hd0]⟩
            rw [← h.2]
            exact hsp0
      · intro cs vs r h
        simp only [parseElems] at h
        rcases hpv : parseVal n cs with _ | ⟨v0, r1⟩ <;> simp only [hpv] at h
        · exact Option.noConfusion h
        · obtain ⟨pre0, c0, hsp0, hl0, he0⟩ := ihV cs v0 r1 hpv
          split at h
          · -- comma, more elements
            rename_i r2 heq1
            rcases hpe2 : parseElems n (skipJsonWs r2) with _ | ⟨vs0, r3⟩ <;>
              simp only [hpe2] at h
            · exact Option.noConfusion h
            · rw [Option.some_inj, Prod.mk.injEq] at h
              obtain ⟨pre2, hsp2, hl2⟩ := ihE (skipJsonWs r2) vs0 r3 hpe2
              obtain ⟨w1, hw1, _⟩ := skipJsonWs_decomp r1
              rw [heq1] at hw1
              obtain ⟨w2, hw2, _⟩ := skipJsonWs_decomp r2
              rw [hsp2] at hw2
              refine ⟨pre0 ++ w1 ++ (',' :: (w2 ++ pre2)), ?_, ?_⟩
              · rw [← h.2, hsp0, hw1, hw2]
                simp
              · rw [lastOf_append_ne _ (List.cons_ne_nil _ _),
                  getLast?_cons_ne _ (by simp [ne_nil_of_getLast? hl2]),
                  lastOf_append_ne _ (ne_nil_of_getLast? hl2)]
                exact hl2
          · -- closing bracket
            rename_i r2 heq1
            rw [Option.some_inj, Prod.mk.injEq] at h
            obtain ⟨w1, hw1, _⟩ := skipJsonWs_decomp r1
            rw [heq1] at hw1
            refine ⟨pre0 ++ (w1 ++ [']']), ?_, ?_⟩
            · rw [← h.2, hsp0, hw1]
              simp
            · rw [lastOf_append_ne _ (by simp), List.getLast?_concat]
          · exact Option.noConfusion h

/-- If `jsonParse` succeeds on a string, the string ends in whitespace or in
a JSON closing character; in particular it cannot end in the letter `t`. -/
theorem jsonParse_last {s : String} {v : JSValue} (h : jsonParse s = some v) :
    ∃ c, s.data.getLast? = some c ∧ (isJsonWs c ∨ isJsonEndCh c) := by
  unfold jsonParse jsonParseL at h
  rcases hp : parseVal (s.data.length + 1) (skipJsonWs s.data) with _ | ⟨v0, rest⟩ <;>
    simp only [hp] at h
  · exact Option.noConfusion h
  · by_cases hre : (skipJsonWs rest).isEmpty
    · obtain ⟨pre, c, hsp, hl, he⟩ := (parse_consumed _).1 _ _ _ hp
      obtain ⟨w, hw, hwall⟩ := skipJsonWs_decomp s.data
      have hrest : ∀ x ∈ rest, isJsonWs x := by
        rw [List.isEmpty_iff] at hre
        exact List.dropWhile_eq_nil_iff.1 hre
      rcases List.eq_nil_or_concat rest with hnil | ⟨l2, a, hla⟩
      · refine ⟨c, ?_, Or.inr he⟩
        rw [hw, hsp, hnil, List.append_nil, lastOf_append_ne _ (ne_nil_of_getLast? hl)]
        exact hl
      · refine ⟨a, ?_, Or.inl (hrest a (by rw [hla, List.concat_eq_append]; simp))⟩
        rw [hw, hsp, hla, List.concat_eq_append]
        rw [show w ++ (pre ++ (l2 ++ [a])) = (w ++ pre ++ l2) ++ [a] by simp,
          List.getLast?_concat]
    · rw [if_neg hre] at h
      exact Option.noConfusion h


/-! ## The smart-handler evaluator

`executeTests` (source lines 759-824) runs each stored test case through the
external Judge0 sandbox and normalizes the outcome.  The sandbox call
`submitToJudge0` is external: it is modelled as a function `judge` from the
submitted program text and language id to either a submission result or a
thrown error (the catch branch of the per-test loop). -/

/-- One normalized test outcome (the smart-handler's `testResult` object). -/
structure TestRecord where
  input : String
  expected_output : String
  actual_output : String
  passed : Bool
  execution_time : ℚ
  memory_used : ℚ
  status : String
  error : Option String
deriving DecidableEq

/-- The report shape returned by `executeTests` (and forwarded as the
smart-handler response consumed by `testGeneratedSolution`). -/
structure TestReport where
  success_rate : ℚ
  total_tests : ℕ
  passed_tests : ℕ
  failed_tests : ℕ
  test_results : List TestRecord
  overall_status : String
deriving DecidableEq

/-- A Judge0 submission result after base64 decoding (status id 3 means
accepted). -/
structure SubmissionResult where
  stdout : String
  stderr : Option String
  status_id : ℕ
  status_desc : String
  time : ℚ
  memory : ℚ
deriving DecidableEq

/-- `LANGUAGE_IDS[language] || LANGUAGE_IDS.python`. -/
def languageIdFor (language : String) : ℕ :=
  if language = "python" then 71
  else if language = "java" then 62
  else if language = "cpp" then 54
  else if language = "javascript" then 63
  else if language = "c" then 50
  else if language = "go" then 60
  else if language = "rust" then 73
  else 71

/-- Word characters of the regex `\w`. -/
def isWordChar (c : Char) : Bool := c.isAlphanum || c = '_'

/-- Try to match the regex `def\s+(\w+)\s*\(` at the head of the character
list, returning the captured name. -/
def matchDefAt (cs : List Char) : Option (List Char) :=
  match cs with
  | 'd' :: 'e' :: 'f' :: rest =>
      if (rest.takeWhile isJsWs).isEmpty then none
      else
        let wsr := rest.dropWhile isJsWs
        let name := wsr.takeWhile isWordChar
        if name.isEmpty then none
        else
          match (wsr.dropWhile isWordChar).dropWhile isJsWs with
          | '(' :: _ => some name
          | _ => none
  | _ => none

/-- Leftmost match of `def\s+(\w+)\s*\(`. -/
def findDefName : List Char → Option (List Char)
  | [] => none
  | c :: rest =>
      match matchDefAt (c :: rest) with
      | some nm => some nm
      | none => findDefName rest

/-- `extractFunctionNameFromCode` (source lines 843-847). -/
def extractFunctionNameFromCode (code : String) : String :=
  match findDefName code.data with
  | some nm => ⟨nm⟩
  | none => "solve"

/-- Rendering of `inputs[i]` inside a template literal: a missing element is
JS `undefined` and renders as the text `undefined`. -/
def stringifyArg (inputs : List JSValue) (i : ℕ) : String :=
  match inputs.get? i with
  | some v => stringifyJS v
  | none => "undefined"

/-- `generatePythonTestCall` (source lines 848-860). -/
def generatePythonTestCall (inputs : List JSValue) (parameterMap : List String)
    (functionName : String) : String :=
  let functionParams := parameterMap.filter (fun p => p ≠ "output")
  if functionParams.length = 1 then
    "result = solution." ++ functionName ++ "(" ++ stringifyArg inputs 0 ++
      ")\n    print(json.dumps(result))"
  else if functionParams.length = 2 then
    "result = solution." ++ functionName ++ "(" ++ stringifyArg inputs 0 ++ ", " ++
      stringifyArg inputs 1 ++ ")\n    print(json.dumps(result))"
  else
    "print(\"Error: Unsupported parameter count\")"

/-- `createCompleteCode` (source lines 825-842). -/
def createCompleteCode (solutionCode : String) (inputs : List JSValue)
    (parameterMap : List String) (language : String) : String :=
  if language = "python" then
    "from typing import List\nimport json\n\n" ++ solutionCode ++
      "\n\n# Test execution\nif __name__ == \"__main__\":\n    solution = Solution()\n    " ++
      generatePythonTestCall inputs parameterMap (extractFunctionNameFromCode solutionCode) ++
      "\n"
  else solutionCode

/-- Truthiness of the optional stderr field (an empty string is falsy in JS,
so it does not populate `testResult.error`). -/
def errField (stderr : Option String) : Option String :=
  match stderr with
  | some e => if e = "" then none else some e
  | none => none

/-- One iteration of the `executeTests` loop (source lines 762-813):
submit the completed program, then normalize the outcome; a thrown
submission produces the catch-branch record. -/
def runOneTest (solutionCode : String) (parameterMap : List String) (language : String)
    (judge : String → ℕ → Except String SubmissionResult)
    (testCase : List JSValue) : TestRecord :=
  let inputs := testCase.dropLast
  let expectedOutput := (testCase.getLast?).getD JSValue.null
  match judge (createCompleteCode solutionCode inputs parameterMap language)
      (languageIdFor language) with
  | .error msg =>
      { input := stringifyJS (.arr (JSList.ofList inputs)),
        expected_output := stringifyJS expectedOutput,
        actual_output := "",
        passed := false,
        execution_time := 0,
        memory_used := 0,
        status := "Error",
        error := some msg }
  | .ok sub =>
      let base : TestRecord :=
        { input := stringifyJS (.arr (JSList.ofList inputs)),
          expected_output := stringifyJS expectedOutput,
          actual_output := sub.stdout,
          passed := false,
          execution_time := sub.time,
          memory_used := sub.memory,
          status := sub.status_desc,
          error := errField sub.stderr }
      if sub.status_id = 3 then
        match jsonParse (jsTrim sub.stdout) with
        | some actualOutput =>
            { base with actual_output := jsTrim sub.stdout,
                        passed := (stringifyJS actualOutput == stringifyJS expectedOutput) }
        | none =>
            { base with actual_output := jsTrim sub.stdout,
                        passed := (jsTrim sub.stdout == stringifyJS expectedOutput) }
      else base

/-- `executeTests` (source lines 759-824). -/
def executeTests (solutionCode : String) (testCases : List (List JSValue))
    (parameterMap : List String) (language : String)
    (judge : String → ℕ → Except String SubmissionResult) : TestReport :=
  let results := testCases.map (runOneTest solutionCode parameterMap language judge)
  let passedTests := (results.filter (fun r => r.passed)).length
  let totalTests := results.length
  { success_rate := if totalTests > 0 then (passedTests : ℚ) / (totalTests : ℚ) * 100 else 0,
    total_tests := totalTests,
    passed_tests := passedTests,
    failed_tests := totalTests - passedTests,
    test_results := results,
    overall_status := if passedTests = totalTests then "All Passed" else "Some Failed" }


/-- C5 (amended): the success rate is `passed / total * 100`, is 0 on an
empty test list, and equals 100 exactly when the report is nonempty and
every record passed.  (As literally stated the claim fails on the empty
list, where every record vacuously passed but the rate is 0.) -/
theorem C5_success_rate (solutionCode : String) (testCases : List (List JSValue))
    (parameterMap : List String) (language : String)
    (judge : String → ℕ → Except String SubmissionResult) (report : TestReport)
    (hrep : report = executeTests solutionCode testCases parameterMap language judge) :
    report.success_rate =
      (if report.test_results.length > 0
       then ((report.test_results.filter (fun r => r.passed)).length : ℚ) /
              (report.test_results.length : ℚ) * 100
       else 0) ∧
    (report.test_results = [] → report.success_rate = 0) ∧
    (report.success_rate = 100 ↔
      report.test_results ≠ [] ∧ ∀ t ∈ report.test_results, t.passed) := by
  subst hrep
  simp only [executeTests]
  set results := testCases.map (runOneTest solutionCode parameterMap language judge) with hres
  refine ⟨by trivial, ?_, ?_⟩
  · intro hnil
    simp [hnil]
  · have hle : (results.filter (fun r => r.passed)).length ≤ results.length :=
      List.length_filter_le _ _
    by_cases h0 : results.length > 0
    · rw [if_pos h0]
      constructor
      · intro hrate
        have hne : (results.length : ℚ) ≠ 0 := by
          exact_mod_cast Nat.pos_iff_ne_zero.1 h0
        have : ((results.filter (fun r => r.passed)).length : ℚ) = results.length := by
          field_simp at hrate
          linarith
        have hlen : (results.filter (fun r => r.passed)).length = results.length := by
          exact_mod_cast this
        refine ⟨by simpa [List.length_pos_iff_ne_nil] using h0, ?_⟩
        intro t ht
        have := List.filter_length_eq_length.1 hlen t ht
        simpa using this
      · rintro ⟨hne, hall⟩
        have hlen : (results.filter (fun r => r.passed)).length = results.length := by
          rw [List.filter_length_eq_length]
          intro t ht
          simpa using hall t ht
        rw [hlen]
        have hq : (results.length : ℚ) ≠ 0 := by
          exact_mod_cast Nat.pos_iff_ne_zero.1 h0
        field_simp
    · rw [if_neg h0]
      simp only [not_lt, Nat.le_zero, List.length_eq_zero] at h0
      constructor
      · intro hrate
        exact absurd hrate (by norm_num)
      · rintro ⟨hne, _⟩
        exact absurd h0 hne

/-- Witness for C5 at a concrete (empty) run. -/
theorem C5_success_rate_witness :
    (executeTests "x" [] ["nums", "output"] "python"
        (fun _ _ => .error "e")).success_rate = 0 :=
  (C5_success_rate "x" [] ["nums", "output"] "python" (fun _ _ => .error "e") _ rfl).2.1 rfl

/-- C5 counterexample to the claim as stated: on an empty test-case list the
report has success rate 0, yet every Test Record in it (vacuously) has
`passed = true`, so the rate is not 100 although "every record passed". -/
theorem C5_counterexample :
    (executeTests "" [] ["nums", "output"] "python" (fun _ _ => .error "unused")).success_rate
        = 0 ∧
    (∀ t ∈ (executeTests "" [] ["nums", "output"] "python"
        (fun _ _ => .error "unused")).test_results, t.passed) ∧
    (executeTests "" [] ["nums", "output"] "python"
        (fun _ _ => .error "unused")).success_rate ≠ 100 := by
  refine ⟨rfl, ?_, ?_⟩
  · intro t ht
    simp [executeTests] at ht
  · intro h
    rw [show (executeTests "" [] ["nums", "output"] "python"
        (fun _ _ => .error "unused")).success_rate = 0 from rfl] at h
    norm_num at h


/-- The submitted program text ends with the unsupported-parameter-count
print statement. -/
def endsWithErrPrint (code : String) : Prop :=
  ∃ pre, code.data = pre ++ ("print(\"Error: Unsupported parameter count\")\n").data

/-- The captured stdout ends with the unsupported-parameter-count line:
this is what running to completion a Python program whose final statement is
that print produces.  (Anything the solution code printed at import time
precedes it.) -/
def stdoutEndsWithErrLine (sub : SubmissionResult) : Prop :=
  ∃ pre, sub.stdout.data = pre ++ ("Error: Unsupported parameter count\n").data

theorem generatePythonTestCall_err {parameterMap : List String}
    (hp : 3 ≤ (parameterMap.filter (fun p => p ≠ "output")).length)
    (inputs : List JSValue) (functionName : String) :
    generatePythonTestCall inputs parameterMap functionName =
      "print(\"Error: Unsupported parameter count\")" := by
  unfold generatePythonTestCall
  rw [if_neg (by omega), if_neg (by omega)]

theorem createCompleteCode_errSuffix {parameterMap : List String}
    (hp : 3 ≤ (parameterMap.filter (fun p => p ≠ "output")).length)
    (solutionCode : String) (inputs : List JSValue) :
    endsWithErrPrint (createCompleteCode solutionCode inputs parameterMap "python") := by
  unfold createCompleteCode
  rw [if_pos rfl, generatePythonTestCall_err hp]
  refine ⟨("from typing import List\nimport json\n\n" ++ solutionCode ++
    "\n\n# Test execution\nif __name__ == \"__main__\":\n    solution = Solution()\n    ").data, ?_⟩
  show (_ ++ _ ++ _ ++ _ : String).data = _
  simp [String.data_append, List.append_assoc]

/-- Dropping leading whitespace keeps a trailing two-character block intact
when its first character is not whitespace. -/
theorem jsTrimLeftL_keep_tail {l x : List Char} {c w : Char}
    (hc : isJsWs c = false) (hl : l = x ++ [c, w]) :
    ∃ y, jsTrimLeftL l = y ++ [c, w] := by
  subst hl
  induction x with
  | nil =>
      refine ⟨[], ?_⟩
      simp [jsTrimLeftL, List.dropWhile, hc]
  | cons a x ih =>
      by_cases ha : isJsWs a
      · obtain ⟨y, hy⟩ := ih
        refine ⟨y, ?_⟩
        simpa [jsTrimLeftL, List.dropWhile, ha] using hy
      · refine ⟨a :: x, ?_⟩
        simp [jsTrimLeftL, List.dropWhile, ha]

/-- Trimming a string that ends in a non-whitespace character followed by a
single whitespace character leaves that character last. -/
theorem jsTrimL_last {l x : List Char} {c w : Char}
    (hc : isJsWs c = false) (hw : isJsWs w = true) (hl : l = x ++ [c, w]) :
    (jsTrimL l).getLast? = some c := by
  obtain ⟨y, hy⟩ := jsTrimLeftL_keep_tail hc hl
  unfold jsTrimL
  rw [hy]
  have hrev : (y ++ [c, w]).reverse = w :: c :: y.reverse := by
    simp
  unfold jsTrimRightL
  rw [hrev]
  rw [List.dropWhile_cons_of_pos (by simpa using hw), List.dropWhile_cons_of_neg (by simpa using hc)]
  rw [show (c :: y.reverse).reverse = y.reverse.reverse ++ [c] from by simp]
  rw [List.getLast?_concat]

/-- The trimmed stdout of a run that ended with the error print ends in the
letter `t`. -/
theorem trim_stdout_last {sub : SubmissionResult} (h : stdoutEndsWithErrLine sub) :
    (jsTrim sub.stdout).data.getLast? = some 't' := by
  obtain ⟨pre, hpre⟩ := h
  have hsplit : sub.stdout.data =
      (pre ++ ("Error: Unsupported parameter coun").data) ++ ['t', '\n'] := by
    rw [hpre]
    simp only [List.append_assoc]
    rfl
  show (jsTrimL sub.stdout.data).getLast? = some 't'
  exact jsTrimL_last (by decide) (by decide) hsplit

/-- A record produced for a test of an unsupported-parameter-count problem is
never marked passed. -/
theorem runOneTest_not_passed {parameterMap : List String}
    (hp : 3 ≤ (parameterMap.filter (fun p => p ≠ "output")).length)
    (solutionCode : String) (testCase : List JSValue)
    (judge : String → ℕ → Except String SubmissionResult)
    (hj : ∀ code sub, endsWithErrPrint code →
        judge code (languageIdFor "python") = .ok sub → sub.status_id = 3 →
        stdoutEndsWithErrLine sub) :
    (runOneTest solutionCode parameterMap "python" judge testCase).passed = false := by
  unfold runOneTest
  rcases hjr : judge (createCompleteCode solutionCode testCase.dropLast parameterMap "python")
      (languageIdFor "python") with msg | sub
  · simp only [hjr]
  · simp only [hjr]
    by_cases h3 : sub.status_id = 3
    · have hstd := hj _ sub (createCompleteCode_errSuffix hp _ _) hjr h3
      have hlast := trim_stdout_last hstd
      rw [if_pos h3]
      rcases hjp : jsonParse (jsTrim sub.stdout) with _ | a
      · simp only [hjp]
        show (jsTrim sub.stdout == stringifyJS ((testCase.getLast?).getD JSValue.null)) = false
        rw [beq_eq_false_iff_ne]
        intro heq
        refine stringifyL_last_ne_t ((testCase.getLast?).getD JSValue.null) ?_
        show (stringifyJS ((testCase.getLast?).getD JSValue.null)).data.getLast? = some 't'
        rw [← heq]
        exact hlast
      · exfalso
        obtain ⟨c, hc, hcase⟩ := jsonParse_last hjp
        rw [hlast, Option.some_inj] at hc
        subst hc
        rcases hcase with hws | hend
        · exact absurd hws (by decide)
        · exact absurd hend (by decide)
    · rw [if_neg h3]


/-- C10: for a parameter map with three or more entries besides `output`,
the generated Python invocation is the unsupported-parameter-count print
statement regardless of the solution code, so (for any sandbox behavior
consistent with running such a program: an accepted run's stdout ends with
the error line) every test evaluates to `passed = false` and the success
rate can never be 100. -/
theorem C10_unsupported_param_count (parameterMap : List String)
    (hp : 3 ≤ (parameterMap.filter (fun p => p ≠ "output")).length) :
    (∀ inputs functionName,
        generatePythonTestCall inputs parameterMap functionName =
          "print(\"Error: Unsupported parameter count\")") ∧
    ∀ solutionCode testCases judge,
      (∀ code sub, endsWithErrPrint code →
          judge code (languageIdFor "python") = .ok sub → sub.status_id = 3 →
          stdoutEndsWithErrLine sub) →
      (∀ t ∈ (executeTests solutionCode testCases parameterMap "python" judge).test_results,
          t.passed = false) ∧
      (executeTests solutionCode testCases parameterMap "python" judge).success_rate ≠ 100 := by
  refine ⟨fun inputs fn => generatePythonTestCall_err hp inputs fn, ?_⟩
  intro solutionCode testCases judge hj
  have hall : ∀ t ∈ (executeTests solutionCode testCases parameterMap "python" judge).test_results,
      t.passed = false := by
    intro t ht
    simp only [executeTests, List.mem_map] at ht
    obtain ⟨tc, _, htc⟩ := ht
    rw [← htc]
    exact runOneTest_not_passed hp solutionCode tc judge hj
  refine ⟨hall, ?_⟩
  simp only [executeTests] at hall ⊢
  set results := testCases.map (runOneTest solutionCode parameterMap "python" judge) with hres
  have hfil : results.filter (fun r => r.passed) = [] := by
    rw [List.filter_eq_nil]
    intro t ht
    simp [hall t ht]
  rw [hfil]
  by_cases h0 : results.length > 0
  · rw [if_pos h0]
    norm_num
  · rw [if_neg h0]
    norm_num

/-- Witness for C10 at a concrete parameter map, test case and sandbox
result. -/
theorem C10_unsupported_param_count_witness :
    generatePythonTestCall [] ["a", "b", "c", "output"] "f" =
      "print(\"Error: Unsupported parameter count\")" ∧
    ∀ t ∈ (executeTests "class Solution: pass"
        [[JSValue.num 1, JSValue.num 2, JSValue.num 3, JSValue.num 0]]
        ["a", "b", "c", "output"] "python"
        (fun _ _ => .ok ⟨"Error: Unsupported parameter count\n", none, 3, "Accepted", 0, 0⟩)).test_results,
      t.passed = false := by
  have h := C10_unsupported_param_count ["a", "b", "c", "output"] (by decide)
  refine ⟨h.1 [] "f", ?_⟩
  refine (h.2 "class Solution: pass"
      [[JSValue.num 1, JSValue.num 2, JSValue.num 3, JSValue.num 0]]
      (fun _ _ => .ok ⟨"Error: Unsupported parameter count\n", none, 3, "Accepted", 0, 0⟩)
      ?_).1
  intro code sub hend hok h3
  rw [Except.ok.injEq] at hok
  subst hok
  exact ⟨[], rfl⟩


/-! ## Test-case parsing: `smartSplit`

`smartSplit` (source lines 702-734) splits one test-case string at commas
that occur at bracket depth 0 outside quoted strings; each field is trimmed
before being collected.  The source then applies `parseValue` (JS `Number` /
`JSON.parse` coercion) to every trimmed field; that per-field coercion does
not move the split positions or field boundaries that claim C9 is about, so
this embedding keeps the fields as their trimmed text. -/

/-- The single-quote character (kept out of character-literal syntax). -/
def singleQuote : Char := Char.ofNat 39

/-- The scanner of `smartSplit`: `cur` accumulates the current field,
`depth` is the square-bracket depth, `inQuotes`/`quoteChar` track quoted
strings.  A comma at depth 0 outside quotes ends the field; the final field
is kept only if nonblank. -/
def smartSplitAux : List Char → List Char → ℤ → Bool → Option Char → List String
  | [], cur, _, _, _ => if jsTrimL cur = [] then [] else [⟨jsTrimL cur⟩]
  | c :: cs, cur, depth, inQuotes, quoteChar =>
      if inQuotes = false ∧ (c = '"' ∨ c = singleQuote) then
        smartSplitAux cs (cur ++ [c]) depth true (some c)
      else if inQuotes = true ∧ some c = quoteChar then
        smartSplitAux cs (cur ++ [c]) depth false quoteChar
      else if inQuotes = false ∧ c = '[' then
        smartSplitAux cs (cur ++ [c]) (depth + 1) inQuotes quoteChar
      else if inQuotes = false ∧ c = ']' then
        smartSplitAux cs (cur ++ [c]) (depth - 1) inQuotes quoteChar
      else if inQuotes = false ∧ c = ',' ∧ depth = 0 then
        (⟨jsTrimL cur⟩ : String) :: smartSplitAux cs [] depth inQuotes quoteChar
      else
        smartSplitAux cs (cur ++ [c]) depth inQuotes quoteChar

/-- `smartSplit` on a string. -/
def smartSplit (s : String) : List String := smartSplitAux s.data [] 0 false none

/-- One transition of the `smartSplit` scanner state. -/
def scanStep : ℤ × Bool × Option Char → Char → ℤ × Bool × Option Char
  | (d, false, qc), c =>
      if c = '"' ∨ c = singleQuote then (d, true, some c)
      else if c = '[' then (d + 1, false, qc)
      else if c = ']' then (d - 1, false, qc)
      else (d, false, qc)
  | (d, true, qc), c => if some c = qc then (d, false, qc) else (d, true, qc)

/-- A comma at bracket depth 0 outside quotes: the splitting positions. -/
abbrev isTopComma (st : ℤ × Bool × Option Char) (c : Char) : Prop :=
  st.2.1 = false ∧ c = ',' ∧ st.1 = 0

/-- The raw (untrimmed, comma-free) segments between the splitting commas. -/
def rawSegmentsAux : List Char → List Char → ℤ × Bool × Option Char → List (List Char)
  | [], cur, _ => [cur]
  | c :: cs, cur, st =>
      if isTopComma st c then cur :: rawSegmentsAux cs [] st
      else rawSegmentsAux cs (cur ++ [c]) (scanStep st c)

/-- The raw segments of a test-case string. -/
def rawSegments (s : String) : List String :=
  (rawSegmentsAux s.data [] (0, false, none)).map (fun l => (⟨l⟩ : String))

/-- Post-processing that turns raw segments into the fields `smartSplit`
returns: trim every segment and drop a blank final segment. -/
def processSegs : List (List Char) → List String
  | [] => []
  | x :: xs =>
      match xs with
      | [] => if jsTrimL x = [] then [] else [(⟨jsTrimL x⟩ : String)]
      | _ :: _ => (⟨jsTrimL x⟩ : String) :: processSegs xs

/-- Join fields with the separating commas. -/
def joinComma : List String → String
  | [] => ""
  | [x] => x
  | x :: xs => x ++ "," ++ joinComma xs

theorem rawSegmentsAux_ne_nil (cs : List Char) :
    ∀ cur st, rawSegmentsAux cs cur st ≠ [] := by
  induction cs with
  | nil => intro cur st; simp [rawSegmentsAux]
  | cons c cs ih =>
      intro cur st
      unfold rawSegmentsAux
      by_cases h : isTopComma st c
      · rw [if_pos h]
        simp
      · rw [if_neg h]
        exact ih _ _

theorem joinCommaL_cons_ne {x : List Char} {xs : List (List Char)} (h : xs ≠ []) :
    joinCommaL (x :: xs) = x ++ ',' :: joinCommaL xs := by
  cases xs with
  | nil => exact absurd rfl h
  | cons y ys => rfl

/-- The raw segments, joined back with commas, reconstruct the scanned
text (preceded by the accumulator). -/
theorem rawSegmentsAux_join (cs : List Char) :
    ∀ cur st, joinCommaL (rawSegmentsAux cs cur st) = cur ++ cs := by
  induction cs with
  | nil =>
      intro cur st
      simp [rawSegmentsAux, joinCommaL]
  | cons c cs ih =>
      intro cur st
      unfold rawSegmentsAux
      by_cases h : isTopComma st c
      · rw [if_pos h, joinCommaL_cons_ne (rawSegmentsAux_ne_nil _ _ _), ih]
        have hc : c = ',' := h.2.1
        rw [hc]
        rfl
      · rw [if_neg h, ih]
        simp

/-- One step of `smartSplitAux`, phrased through `isTopComma` and
`scanStep`: a top-level comma pushes the trimmed field, any other character
is accumulated while the state advances. -/
theorem smartSplitAux_cons (c : Char) (cs cur : List Char) (d : ℤ) (q : Bool)
    (qc : Option Char) :
    smartSplitAux (c :: cs) cur d q qc =
      if isTopComma (d, q, qc) c then
        (⟨jsTrimL cur⟩ : String) :: smartSplitAux cs [] d q qc
      else
        smartSplitAux cs (cur ++ [c]) (scanStep (d, q, qc) c).1
          (scanStep (d, q, qc) c).2.1 (scanStep (d, q, qc) c).2.2 := by
  rw [show smartSplitAux (c :: cs) cur d q qc =
      (if q = false ∧ (c = '"' ∨ c = singleQuote) then
        smartSplitAux cs (cur ++ [c]) d true (some c)
      else if q = true ∧ some c = qc then
        smartSplitAux cs (cur ++ [c]) d false qc
      else if q = false ∧ c = '[' then
        smartSplitAux cs (cur ++ [c]) (d + 1) q qc
      else if q = false ∧ c = ']' then
        smartSplitAux cs (cur ++ [c]) (d - 1) q qc
      else if q = false ∧ c = ',' ∧ d = 0 then
        (⟨jsTrimL cur⟩ : String) :: smartSplitAux cs [] d q qc
      else
        smartSplitAux cs (cur ++ [c]) d q qc) from rfl]
  cases q with
  | true =>
      split_ifs with h1 h2 h3 h4 h5 h6 <;>
        simp_all [scanStep, singleQuote, isTopComma]
  | false =>
      split_ifs with h1 h2 h3 h4 h5 h6 <;>
        simp_all [scanStep, singleQuote, isTopComma]

/-- `smartSplitAux` computes exactly the processed raw segments. -/
theorem smartSplitAux_eq_processSegs (cs : List Char) :
    ∀ cur d q qc,
      smartSplitAux cs cur d q qc = processSegs (rawSegmentsAux cs cur (d, q, qc)) := by
  induction cs with
  | nil =>
      intro cur d q qc
      rfl
  | cons c cs ih =>
      intro cur d q qc
      rw [smartSplitAux_cons]
      unfold rawSegmentsAux
      by_cases htop : isTopComma ((d : ℤ), q, qc) c
      · rw [if_pos htop, if_pos htop, ih]
        cases hre : rawSegmentsAux cs [] ((d : ℤ), q, qc) with
        | nil => exact absurd hre (rawSegmentsAux_ne_nil _ _ _)
        | cons z zs => rfl
      · rw [if_neg htop, if_neg htop, ih]


/-- Scanner state after consuming a list of characters. -/
def scanEnd (cs : List Char) (st : ℤ × Bool × Option Char) : ℤ × Bool × Option Char :=
  cs.foldl scanStep st

/-- No top-level comma occurs while scanning `cs` from `st`. -/
def noTopComma : List Char → ℤ × Bool × Option Char → Prop
  | [], _ => True
  | c :: cs, st => ¬isTopComma st c ∧ noTopComma cs (scanStep st c)

/-- Two scanner states that agree on depth and quote flag (and on the quote
character whenever the flag is set) are interchangeable. -/
def stEquiv (st st2 : ℤ × Bool × Option Char) : Prop :=
  st.1 = st2.1 ∧ st.2.1 = st2.2.1 ∧ (st.2.1 = true → st.2.2 = st2.2.2)

theorem isTopComma_equiv {st st2 : ℤ × Bool × Option Char} (h : stEquiv st st2)
    (c : Char) : isTopComma st c ↔ isTopComma st2 c := by
  obtain ⟨h1, h2, h3⟩ := h
  unfold isTopComma
  rw [h1, h2]

theorem scanStep_equiv {st st2 : ℤ × Bool × Option Char} (h : stEquiv st st2)
    (c : Char) : stEquiv (scanStep st c) (scanStep st2 c) := by
  obtain ⟨d, q, qc⟩ := st
  obtain ⟨d2, q2, qc2⟩ := st2
  obtain ⟨h1, h2, h3⟩ := h
  simp only at h1 h2 h3
  subst h1
  subst h2
  cases q with
  | false =>
      simp only [scanStep]
      split_ifs <;> exact ⟨rfl, rfl, by intro hh; simp_all [stEquiv]⟩
  | true =>
      rw [h3 rfl]
      exact ⟨rfl, rfl, fun _ => rfl⟩

theorem rawSegmentsAux_equiv (cs : List Char) :
    ∀ cur {st st2}, stEquiv st st2 →
      rawSegmentsAux cs cur st = rawSegmentsAux cs cur st2 := by
  induction cs with
  | nil => intro cur st st2 h; rfl
  | cons c cs ih =>
      intro cur st st2 h
      unfold rawSegmentsAux
      by_cases htop : isTopComma st c
      · rw [if_pos htop, if_pos ((isTopComma_equiv h c).1 htop), ih [] h]
      · rw [if_neg htop, if_neg (fun h2 => htop ((isTopComma_equiv h c).2 h2)),
          ih (cur ++ [c]) (scanStep_equiv h c)]

theorem rawSegmentsAux_noSplit (cs : List Char) :
    ∀ cur st, noTopComma cs st → rawSegmentsAux cs cur st = [cur ++ cs] := by
  induction cs with
  | nil => intro cur st _; simp [rawSegmentsAux]
  | cons c cs ih =>
      intro cur st hn
      obtain ⟨hnc, hrest⟩ := hn
      unfold rawSegmentsAux
      rw [if_neg hnc, ih _ _ hrest]
      simp

theorem scanEnd_concat (l : List Char) (c : Char) (st : ℤ × Bool × Option Char) :
    scanEnd (l ++ [c]) st = scanStep (scanEnd l st) c := by
  simp [scanEnd, List.foldl_append]

theorem noTopComma_concat {l : List Char} {c : Char} {st : ℤ × Bool × Option Char}
    (h1 : noTopComma l st) (h2 : ¬isTopComma (scanEnd l st) c) :
    noTopComma (l ++ [c]) st := by
  induction l generalizing st with
  | nil => exact ⟨h2, trivial⟩
  | cons a l ih =>
      obtain ⟨ha, hrest⟩ := h1
      exact ⟨ha, ih hrest (by simpa [scanEnd] using h2)⟩

/-- Every raw segment is atomic: re-splitting it yields just the segment
itself (there is no top-level comma inside a segment). -/
theorem rawSegmentsAux_atomic (cs : List Char) :
    ∀ cur st, noTopComma cur (0, false, none) →
      stEquiv (scanEnd cur (0, false, none)) st →
      ∀ seg ∈ rawSegmentsAux cs cur st,
        rawSegmentsAux seg [] (0, false, none) = [seg] := by
  induction cs with
  | nil =>
      intro cur st hn he seg hseg
      simp only [rawSegmentsAux, List.mem_singleton] at hseg
      subst hseg
      rw [rawSegmentsAux_noSplit _ _ _ hn]
      simp
  | cons c cs ih =>
      intro cur st hn he seg hseg
      unfold rawSegmentsAux at hseg
      by_cases htop : isTopComma st c
      · rw [if_pos htop] at hseg
        rcases List.mem_cons.1 hseg with hcur | hrest
        · subst hcur
          rw [rawSegmentsAux_noSplit _ _ _ hn]
          simp
        · refine ih [] st trivial ?_ seg hrest
          obtain ⟨hq, _, hd⟩ := htop
          exact ⟨hd.symm, hq.symm, fun hh => Bool.noConfusion hh⟩
      · rw [if_neg htop] at hseg
        refine ih (cur ++ [c]) (scanStep st c) ?_ ?_ seg hseg
        · exact noTopComma_concat hn (fun hsc => htop ((isTopComma_equiv he c).1 hsc))
        · rw [scanEnd_concat]
          exact scanStep_equiv he c

theorem joinComma_map (L : List (List Char)) :
    joinComma (L.map (fun l => (⟨l⟩ : String))) = ⟨joinCommaL L⟩ := by
  induction L with
  | nil => rfl
  | cons x xs ih =>
      cases xs with
      | nil => rfl
      | cons y ys =>
          rw [show joinComma ((x :: y :: ys).map (fun l => (⟨l⟩ : String))) =
              (⟨x⟩ : String) ++ "," ++ joinComma ((y :: ys).map (fun l => (⟨l⟩ : String)))
              from rfl, ih, @joinCommaL_cons_ne x (y :: ys) (List.cons_ne_nil _ _)]
          show (⟨(x ++ [',']) ++ joinCommaL (y :: ys)⟩ : String) =
            (⟨x ++ ',' :: joinCommaL (y :: ys)⟩ : String)
          exact congrArg (fun l => (⟨l⟩ : String)) (by simp)

/-- C9 (amended): `smartSplit` splits exactly at top-level commas (commas at
square-bracket depth 0 outside quotes).  The untrimmed raw segments between
those commas, joined back with commas, reconstruct the input, and each raw
segment is atomic (re-splitting it yields only itself); however the fields
`smartSplit` actually returns are the TRIMMED segments with a blank final
segment dropped, so the concatenation of the returned fields does not in
general reconstruct the input. -/
theorem C9_smartSplit (s : String) :
    joinComma (rawSegments s) = s ∧
    smartSplit s = processSegs (rawSegmentsAux s.data [] (0, false, none)) ∧
    ∀ seg ∈ rawSegments s, rawSegments seg = [seg] := by
  refine ⟨?_, smartSplitAux_eq_processSegs s.data [] 0 false none, ?_⟩
  · rw [rawSegments, joinComma_map, rawSegmentsAux_join]
    cases s
    rfl
  · intro seg hseg
    rw [rawSegments, List.mem_map] at hseg
    obtain ⟨l, hl, hls⟩ := hseg
    have hat := rawSegmentsAux_atomic s.data [] (0, false, none) trivial
      ⟨rfl, rfl, fun _ => rfl⟩ l hl
    rw [rawSegments, show seg.data = l from by rw [← hls], hat]
    rw [← hls]
    rfl

/-- Witness for C9 (amended) at a concrete input with a bracketed field. -/
theorem C9_smartSplit_witness :
    joinComma (rawSegments "[1, 2], 3") = "[1, 2], 3" ∧
    rawSegments "[1, 2]" = ["[1, 2]"] :=
  ⟨(C9_smartSplit "[1, 2], 3").1,
   (C9_smartSplit "[1, 2], 3").2.2 "[1, 2]" (by decide)⟩

/-- C9 counterexample to the claim as stated: the returned fields are
trimmed, so their concatenation (with the separating commas) need not
reconstruct the input. -/
theorem C9_counterexample :
    smartSplit " 1" = ["1"] ∧ joinComma (smartSplit " 1") ≠ " 1" := by
  constructor
  · decide
  · decide


/-! ## The code extractor: `extractCleanCode`

`extractCleanCode` (source lines 926-1009) recovers a clean program from
raw model output by four ordered patterns and a fallback:
1. a closed fenced block tagged with the language,
2. an open fenced block tagged with the language, cut at the earliest
   stop marker,
3. (python) the lines from the first anchor line (`from typing import` /
   `class Solution:`) up to the first prose-marker line, accepted only if
   they still contain `class Solution:`,
4. the trimmed input itself when it contains `class Solution:` and no
   fence marker, and otherwise the input unchanged. -/

/-- The backtick character (kept out of literal syntax). -/
def backtick : Char := Char.ofNat 96

/-- Three backticks: a fence marker. -/
def fence3 : List Char := [backtick, backtick, backtick]

def classAnchor : List Char := "class Solution:".data

def typingAnchor : List Char := "from typing import".data

/-- Lower-case a character list (for the regex `i` flag). -/
def toLowerL (l : List Char) : List Char := l.map Char.toLower

/-- Split at newline characters (JS `split`); total and never empty. -/
def splitNl : List Char → List (List Char)
  | [] => [[]]
  | c :: cs =>
      if c = '\n' then [] :: splitNl cs
      else
        match splitNl cs with
        | l :: ls => (c :: l) :: ls
        | [] => [[c]]

/-- Join lines with newlines (JS `join`). -/
def joinNl : List (List Char) → List Char
  | [] => []
  | [l] => l
  | l :: ls => l ++ '\n' :: joinNl ls

/-- Does a case-insensitive open fence `(three backticks)language` followed
by `\s*\n` start here?  (Backticks have no case, so they are matched
exactly; the language letters are compared lower-cased.) -/
def matchesOpenAt (lang cs : List Char) : Prop :=
  cs.take 3 = fence3 ∧
  toLowerL ((cs.drop 3).take lang.length) = toLowerL lang ∧
  '\n' ∈ ((cs.drop 3).drop lang.length).takeWhile isJsWs

instance (lang cs : List Char) : Decidable (matchesOpenAt lang cs) := by
  unfold matchesOpenAt
  infer_instance

/-- The content following an open fence at this position: the `\s*\n` of
the regex consumes the whitespace run up to and including its last newline;
what remains of the run belongs to the content. -/
def openContentAt (lang cs : List Char) : List Char :=
  let after := (cs.drop 3).drop lang.length
  let w := after.takeWhile isJsWs
  (w.reverse.takeWhile (fun c => ¬(c = '\n'))).reverse ++ after.dropWhile isJsWs

/-- Split at the first fence marker, if any: `(before, fromFence)`. -/
def splitAtFence : List Char → Option (List Char × List Char)
  | [] => none
  | c :: cs =>
      if (c :: cs).take 3 = fence3 then some ([], c :: cs)
      else
        match splitAtFence cs with
        | some (b, a) => some (c :: b, a)
        | none => none

/-- Pattern 1: scan for the first open fence whose content is closed by a
later fence; return the trimmed interior (the regex `\n?` excludes one
newline immediately before the closing fence). -/
def findClosedBlock (lang : List Char) : List Char → Option (List Char)
  | [] => none
  | c :: cs =>
      if matchesOpenAt lang (c :: cs) then
        match splitAtFence (openContentAt lang (c :: cs)) with
        | some (before, _) =>
            some (jsTrimL (if before.getLast? = some '\n' then before.dropLast else before))
        | none => findClosedBlock lang cs
      else findClosedBlock lang cs

/-- Pattern 2: the first open fence, closed or not; returns its content. -/
def findOpenBlock (lang : List Char) : List Char → Option (List Char)
  | [] => none
  | c :: cs =>
      if matchesOpenAt lang (c :: cs) then some (openContentAt lang (c :: cs))
      else findOpenBlock lang cs

/-- Index of the first occurrence of `pat`, if any. -/
def firstIndexOf (pat : List Char) : List Char → Option ℕ
  | [] => none
  | c :: cs =>
      if pat.isPrefixOf (c :: cs) then some 0
      else
        match firstIndexOf pat cs with
        | some n => some (n + 1)
        | none => none

/-- The stop markers of pattern 2 (source lines 946-956). -/
def stopPatterns : List (List Char) :=
  [fence3,
   ('\n' :: "### ".data),
   ('\n' :: "## ".data),
   ('\n' :: "Explanation".data),
   ('\n' :: "This approach".data),
   ('\n' :: "1. **".data),
   ('\n' :: "2. **".data),
   ('\n' :: "Time Complexity".data),
   ('\n' :: "Space Complexity".data)]

/-- The earliest stop-marker position in an open block's content (the
content length when no marker occurs). -/
def earliestStop (content : List Char) : ℕ :=
  stopPatterns.foldl
    (fun acc pat =>
      match firstIndexOf pat content with
      | some n => if n < acc then n else acc
      | none => acc)
    content.length

/-- Does `pat` occur as a contiguous substring? -/
def containsL (pat : List Char) : List Char → Bool
  | [] => pat.isEmpty
  | c :: cs => pat.isPrefixOf (c :: cs) || containsL pat cs

theorem containsL_iff (pat : List Char) : ∀ l, containsL pat l = true ↔ pat <:+: l := by
  intro l
  induction l with
  | nil =>
      simp only [containsL, List.isEmpty_iff]
      rw [List.infix_nil]
  | cons c cs ih =>
      simp only [containsL, Bool.or_eq_true, List.isPrefixOf_iff_prefix, ih]
      rw [List.infix_cons_iff]

/-- A line containing one of the two python anchors. -/
def isAnchorLine (l : List Char) : Bool :=
  containsL typingAnchor l || containsL classAnchor l

/-- The regex `^\d+\.\s+\*\*` of the pattern-3 end scan. -/
def matchesNumBold (t : List Char) : Bool :=
  let ds := t.takeWhile Char.isDigit
  if ds.isEmpty then false
  else
    match t.drop ds.length with
    | '.' :: rest =>
        !(rest.takeWhile isJsWs).isEmpty &&
          ((rest.dropWhile isJsWs).take 2 == ['*', '*'])
    | _ => false

/-- A prose-marker line ending the pattern-3 scan (source line 986). -/
def isMarkerLine (l : List Char) : Bool :=
  let t := jsTrimL l
  ("###".data).isPrefixOf t ||
  ("Explanation".data).isPrefixOf t ||
  ("This ".data).isPrefixOf t ||
  ("The ".data).isPrefixOf t ||
  matchesNumBold t

/-- The lines from the first anchor line on, if any. -/
def findAnchorLines : List (List Char) → Option (List (List Char))
  | [] => none
  | l :: ls => if isAnchorLine l then some (l :: ls) else findAnchorLines ls

/-- The lines before the first marker line. -/
def takeUntilMarker : List (List Char) → List (List Char)
  | [] => []
  | l :: ls => if isMarkerLine l then [] else l :: takeUntilMarker ls

/-- Pattern 3 on the line list: anchor-to-marker slice, trimmed. -/
def anchorSlice (lines : List (List Char)) : Option (List Char) :=
  match findAnchorLines lines with
  | some (first :: rest) => some (jsTrimL (joinNl (first :: takeUntilMarker rest)))
  | _ => none

/-- Patterns 4 and 5 (source lines 1000-1008): the trimmed input when it
contains `class Solution:` and no fence, else the input unchanged. -/
def cleanOrOriginal (code : String) : String :=
  if containsL classAnchor code.data && !containsL fence3 code.data then
    jsTrim code
  else code

/-- `extractCleanCode` (source lines 926-1009). -/
def extractCleanCode (code : String) (language : String) : String :=
  match findClosedBlock (toLowerL language.data) code.data with
  | some interior => ⟨interior⟩
  | none =>
      match findOpenBlock (toLowerL language.data) code.data with
      | some content => ⟨jsTrimL (content.take (earliestStop content))⟩
      | none =>
          if language = "python" then
            match anchorSlice (splitNl code.data) with
            | some extracted =>
                if containsL classAnchor extracted then (⟨extracted⟩ : String)
                else cleanOrOriginal code
            | none => cleanOrOriginal code
          else cleanOrOriginal code


theorem dropWhile_idem (p : Char → Bool) (l : List Char) :
    (l.dropWhile p).dropWhile p = l.dropWhile p := by
  induction l with
  | nil => rfl
  | cons c cs ih =>
      by_cases h : p c
      · rw [List.dropWhile_cons_of_pos h, ih]
      · rw [List.dropWhile_cons_of_neg h, List.dropWhile_cons_of_neg h]

theorem dropWhile_append_all {p : Char → Bool} {x : List Char} (y : List Char)
    (hx : ∀ c ∈ x, p c) : (x ++ y).dropWhile p = y.dropWhile p := by
  induction x with
  | nil => rfl
  | cons c cs ih =>
      rw [List.cons_append, List.dropWhile_cons_of_pos (hx c (by simp))]
      exact ih (fun d hd => hx d (by simp [hd]))

theorem dropWhile_append_ne {p : Char → Bool} {x : List Char} (y : List Char)
    (hx : x.dropWhile p ≠ []) : (x ++ y).dropWhile p = x.dropWhile p ++ y := by
  induction x with
  | nil => exact absurd rfl hx
  | cons c cs ih =>
      by_cases h : p c
      · rw [List.dropWhile_cons_of_pos h] at hx
        rw [List.cons_append, List.dropWhile_cons_of_pos h, List.dropWhile_cons_of_pos h, ih hx]
      · rw [List.cons_append, List.dropWhile_cons_of_neg h, List.dropWhile_cons_of_neg h,
          List.cons_append]

theorem dropWhile_head_not {p : Char → Bool} {l t : List Char} {c : Char}
    (h : l.dropWhile p = c :: t) : p c = false := by
  induction l with
  | nil => exact List.noConfusion h
  | cons a as ih =>
      by_cases ha : p a
      · rw [List.dropWhile_cons_of_pos ha] at h
        exact ih h
      · rw [List.dropWhile_cons_of_neg ha] at h
        injection h with h1 h2
        subst h1
        simpa using ha

/-! Trimming algebra. -/

theorem jsTrimLeftL_decomp (l : List Char) :
    ∃ w, l = w ++ jsTrimLeftL l ∧ ∀ c ∈ w, isJsWs c :=
  ⟨l.takeWhile isJsWs, (List.takeWhile_append_dropWhile _ _).symm,
   fun _ hc => List.mem_takeWhile_imp hc⟩

theorem jsTrimRightL_decomp (l : List Char) :
    ∃ w, l = jsTrimRightL l ++ w ∧ ∀ c ∈ w, isJsWs c := by
  refine ⟨(l.reverse.takeWhile isJsWs).reverse, ?_, ?_⟩
  · conv_lhs => rw [← List.reverse_reverse l, ← List.takeWhile_append_dropWhile isJsWs l.reverse]
    rw [List.reverse_append]
    rfl
  · intro c hc
    rw [List.mem_reverse] at hc
    exact List.mem_takeWhile_imp hc

theorem jsTrimLeftL_idem (l : List Char) : jsTrimLeftL (jsTrimLeftL l) = jsTrimLeftL l :=
  dropWhile_idem _ _

theorem jsTrimRightL_idem (l : List Char) : jsTrimRightL (jsTrimRightL l) = jsTrimRightL l := by
  unfold jsTrimRightL
  rw [List.reverse_reverse, dropWhile_idem]

theorem jsTrimLeftL_append_all {x : List Char} (y : List Char) (hx : ∀ c ∈ x, isJsWs c) :
    jsTrimLeftL (x ++ y) = jsTrimLeftL y :=
  dropWhile_append_all y hx

theorem jsTrimRightL_append_all (x : List Char) {y : List Char} (hy : ∀ c ∈ y, isJsWs c) :
    jsTrimRightL (x ++ y) = jsTrimRightL x := by
  unfold jsTrimRightL
  rw [List.reverse_append, dropWhile_append_all _ (by simpa using hy)]

theorem jsTrimLeftL_append_ne {x : List Char} (y : List Char) (hx : jsTrimLeftL x ≠ []) :
    jsTrimLeftL (x ++ y) = jsTrimLeftL x ++ y :=
  dropWhile_append_ne y hx

theorem jsTrimRightL_append_ne (x : List Char) {y : List Char} (hy : jsTrimRightL y ≠ []) :
    jsTrimRightL (x ++ y) = x ++ jsTrimRightL y := by
  unfold jsTrimRightL at hy ⊢
  rw [List.reverse_append, dropWhile_append_ne _ (by
    intro hh
    rw [hh] at hy
    simp at hy)]
  simp

theorem jsTrimRightL_eq_nil_iff (l : List Char) :
    jsTrimRightL l = [] ↔ ∀ c ∈ l, isJsWs c := by
  unfold jsTrimRightL
  rw [List.reverse_eq_nil_iff, List.dropWhile_eq_nil_iff]
  constructor
  · intro h c hc
    exact h c (List.mem_reverse.2 hc)
  · intro h c hc
    exact h c (List.mem_reverse.1 hc)

theorem jsTrimLeftL_eq_nil_iff (l : List Char) :
    jsTrimLeftL l = [] ↔ ∀ c ∈ l, isJsWs c := by
  unfold jsTrimLeftL
  rw [List.dropWhile_eq_nil_iff]

theorem jsTrimRightL_last_not_ws {l r : List Char} (h : jsTrimRightL l = r) (hne : r ≠ []) :
    ∃ c t, r = t ++ [c] ∧ isJsWs c = false := by
  rcases r.eq_nil_or_concat with h0 | ⟨t, c, hc⟩
  · exact absurd h0 hne
  · refine ⟨c, t, by rw [hc, List.concat_eq_append], ?_⟩
    unfold jsTrimRightL at h
    have : l.reverse.dropWhile isJsWs = r.reverse := by
      rw [← h, List.reverse_reverse]
    rw [hc] at this
    rw [List.concat_eq_append, List.reverse_append] at this
    exact dropWhile_head_not this

/-- The idempotence of `jsTrimL`. -/
theorem jsTrimL_idem (l : List Char) : jsTrimL (jsTrimL l) = jsTrimL l := by
  unfold jsTrimL
  rcases hh : jsTrimRightL (jsTrimLeftL l) with _ | ⟨c, t⟩
  · rfl
  · have hlt : jsTrimLeftL (c :: t) = c :: t := by
      obtain ⟨w, hw, _⟩ := jsTrimRightL_decomp (jsTrimLeftL l)
      rw [hh] at hw
      have hidem := jsTrimLeftL_idem l
      rw [hw] at hidem
      have hc : isJsWs c = false := by
        have := hidem
        rw [show ((c :: t) ++ w : List Char) = c :: (t ++ w) from rfl] at this
        exact dropWhile_head_not this
      rw [jsTrimLeftL, List.dropWhile_cons_of_neg (by simp [hc])]
    rw [hlt, ← hh, jsTrimRightL_idem]

theorem splitNl_ne_nil (l : List Char) : splitNl l ≠ [] := by
  cases l with
  | nil => simp [splitNl]
  | cons c cs =>
      unfold splitNl
      by_cases h : c = '\n'
      · simp [h]
      · rw [if_neg h]
        cases splitNl cs <;> simp

theorem splitNl_head_prefix_self : ∀ {cs : List Char} {f : List Char} {t : List (List Char)},
    splitNl cs = f :: t → f <+: cs := by
  intro cs
  induction cs with
  | nil =>
      intro f t h
      rw [splitNl] at h
      injection h with h1 _
      subst h1
      exact List.nil_prefix
  | cons c cs ih =>
      intro f t h
      rw [splitNl] at h
      by_cases hc : c = '\n'
      · rw [if_pos hc] at h
        injection h with h1 _
        subst h1
        exact List.nil_prefix
      · rw [if_neg hc] at h
        rcases hs : splitNl cs with _ | ⟨l, ls⟩
        · exact absurd hs (splitNl_ne_nil cs)
        · rw [hs] at h
          injection h with h1 _
          subst h1
          exact (List.prefix_cons_inj c).2 (ih hs)

theorem splitNl_mem_infix : ∀ {cs : List Char} {li : List Char},
    li ∈ splitNl cs → li <:+: cs := by
  intro cs
  induction cs with
  | nil =>
      intro li h
      rw [splitNl, List.mem_singleton] at h
      subst h
      exact List.infix_rfl
  | cons c cs ih =>
      intro li h
      rw [splitNl] at h
      by_cases hc : c = '\n'
      · rw [if_pos hc] at h
        rcases List.mem_cons.1 h with h0 | h0
        · subst h0
          exact List.nil_infix
        · exact (ih h0).trans (List.infix_cons (List.infix_refl cs))
      · rw [if_neg hc] at h
        rcases hs : splitNl cs with _ | ⟨l, ls⟩
        · exact absurd hs (splitNl_ne_nil cs)
        · rw [hs] at h
          rcases List.mem_cons.1 h with h0 | h0
          · subst h0
            obtain ⟨t, ht⟩ := splitNl_head_prefix_self hs
            exact ⟨[], t, by simp [← ht]⟩
          · exact ((ih (by rw [hs]; exact List.mem_cons_of_mem l h0))).trans
              (List.infix_cons (List.infix_refl cs))

theorem joinNl_cons_ne (l : List Char) {ls : List (List Char)} (h : ls ≠ []) :
    joinNl (l :: ls) = l ++ '\n' :: joinNl ls := by
  cases ls with
  | nil => exact absurd rfl h
  | cons m ms => rfl

theorem joinNl_splitNl : ∀ l : List Char, joinNl (splitNl l) = l := by
  intro l
  induction l with
  | nil => rfl
  | cons c cs ih =>
      rw [splitNl]
      by_cases hc : c = '\n'
      · rw [if_pos hc]
        rw [joinNl_cons_ne [] (splitNl_ne_nil cs), ih, hc]
        rfl
      · rw [if_neg hc]
        rcases hs : splitNl cs with _ | ⟨l0, ls⟩
        · exact absurd hs (splitNl_ne_nil cs)
        · rw [hs] at ih
          cases ls with
          | nil =>
              rw [joinNl]
              rw [joinNl] at ih
              rw [ih]
          | cons m ms =>
              rw [joinNl_cons_ne _ (by simp)]
              rw [joinNl_cons_ne _ (by simp)] at ih
              rw [List.cons_append, ih]

theorem matchesOpenAt_fence {lang cs : List Char} (h : matchesOpenAt lang cs) :
    fence3 <:+: cs := by
  obtain ⟨h1, _, _⟩ := h
  exact (h1 ▸ List.take_prefix 3 cs).isInfix

theorem findClosedBlock_none (lang : List Char) :
    ∀ {cs : List Char}, ¬(fence3 <:+: cs) → findClosedBlock lang cs = none := by
  intro cs
  induction cs with
  | nil => intro _; rfl
  | cons c cs ih =>
      intro h
      rw [List.infix_cons_iff] at h
      push_neg at h
      rw [findClosedBlock, if_neg (fun hm => h.1 (by
        have := matchesOpenAt_fence hm
        rw [List.infix_cons_iff] at this
        rcases this with h0 | h0
        · exact h0
        · exact absurd h0 h.2))]
      exact ih h.2

theorem findOpenBlock_none (lang : List Char) :
    ∀ {cs : List Char}, ¬(fence3 <:+: cs) → findOpenBlock lang cs = none := by
  intro cs
  induction cs with
  | nil => intro _; rfl
  | cons c cs ih =>
      intro h
      rw [List.infix_cons_iff] at h
      push_neg at h
      rw [findOpenBlock, if_neg (fun hm => h.1 (by
        have := matchesOpenAt_fence hm
        rw [List.infix_cons_iff] at this
        rcases this with h0 | h0
        · exact h0
        · exact absurd h0 h.2))]
      exact ih h.2

theorem findAnchorLines_none : ∀ {L : List (List Char)},
    (∀ l ∈ L, isAnchorLine l = false) → findAnchorLines L = none := by
  intro L
  induction L with
  | nil => intro _; rfl
  | cons l ls ih =>
      intro h
      rw [findAnchorLines, if_neg (by simp [h l (by simp)])]
      exact ih (fun m hm => h m (List.mem_cons_of_mem l hm))

/-- **C6.** When the model reply contains no fence marker, no
`from typing import` and no `class Solution:`, `extractCleanCode` returns it
unchanged (spec section 4.7, patterns 1-5 all fail to pattern 5). -/
theorem C6_no_marker_identity (code : String)
    (hfence : ¬(fence3 <:+: code.data))
    (htyp : ¬(typingAnchor <:+: code.data))
    (hcls : ¬(classAnchor <:+: code.data)) :
    extractCleanCode code "python" = code := by
  have hanch : ∀ l ∈ splitNl code.data, isAnchorLine l = false := by
    intro l hl
    have hinf := splitNl_mem_infix hl
    unfold isAnchorLine
    rw [Bool.or_eq_false_iff]
    refine ⟨Bool.eq_false_iff.2 ?_, Bool.eq_false_iff.2 ?_⟩
    · exact fun h0 => htyp (((containsL_iff _ _).1 h0).trans hinf)
    · exact fun h0 => hcls (((containsL_iff _ _).1 h0).trans hinf)
  have hco : cleanOrOriginal code = code := by
    unfold cleanOrOriginal
    rw [if_neg]
    simp only [Bool.and_eq_true, containsL_iff]
    intro h0
    exact hcls h0.1
  unfold extractCleanCode
  rw [findClosedBlock_none _ hfence, findOpenBlock_none _ hfence, if_pos rfl]
  unfold anchorSlice
  rw [findAnchorLines_none hanch]
  exact hco

/-- Witness for C6 at a concrete marker-free reply. -/
theorem C6_no_marker_identity_witness :
    extractCleanCode "def add(a, b): return a + b" "python" =
      "def add(a, b): return a + b" :=
  C6_no_marker_identity "def add(a, b): return a + b"
    (by decide) (by decide) (by decide)

theorem jsTrimLeftL_suffix (l : List Char) : jsTrimLeftL l <:+ l :=
  List.dropWhile_suffix isJsWs

theorem jsTrimRightL_prefix_self (l : List Char) : jsTrimRightL l <+: l := by
  obtain ⟨w, hw, _⟩ := jsTrimRightL_decomp l
  exact ⟨w, hw.symm⟩

theorem jsTrimL_infix_self (l : List Char) : jsTrimL l <:+: l := by
  unfold jsTrimL
  exact ((jsTrimRightL_prefix_self (jsTrimLeftL l)).isInfix).trans (jsTrimLeftL_suffix l).isInfix

theorem mem_of_mem_jsTrimL {c : Char} {l : List Char} (h : c ∈ jsTrimL l) : c ∈ l :=
  (jsTrimL_infix_self l).subset h

theorem mem_of_mem_jsTrimLeftL {c : Char} {l : List Char} (h : c ∈ jsTrimLeftL l) : c ∈ l :=
  (jsTrimLeftL_suffix l).subset h

theorem mem_of_mem_jsTrimRightL {c : Char} {l : List Char} (h : c ∈ jsTrimRightL l) : c ∈ l :=
  (jsTrimRightL_prefix_self l).subset h

/-- Trimming absorbs a previous right trim. -/
theorem jsTrimL_jsTrimRightL (m : List Char) : jsTrimL (jsTrimRightL m) = jsTrimL m := by
  obtain ⟨w, hw, hws⟩ := jsTrimRightL_decomp m
  by_cases h0 : jsTrimLeftL (jsTrimRightL m) = []
  · have hall : ∀ c ∈ jsTrimRightL m, isJsWs c := (jsTrimLeftL_eq_nil_iff _).1 h0
    have hnil : jsTrimRightL m = [] := by
      by_contra hne
      obtain ⟨c, t, hct, hcf⟩ := jsTrimRightL_last_not_ws rfl hne
      have := hall c (by rw [hct]; simp)
      rw [hcf] at this
      exact Bool.noConfusion this
    have hmws : ∀ c ∈ m, isJsWs c := by
      intro c hc
      rw [hw, hnil] at hc
      exact hws c (by simpa using hc)
    rw [hnil]
    unfold jsTrimL
    rw [(jsTrimLeftL_eq_nil_iff m).2 hmws]
    rfl
  · conv_rhs => rw [hw]
    unfold jsTrimL
    rw [jsTrimLeftL_append_ne _ h0, jsTrimRightL_append_all _ hws]

/-- Trimming absorbs a previous left trim. -/
theorem jsTrimL_jsTrimLeftL (m : List Char) : jsTrimL (jsTrimLeftL m) = jsTrimL m := by
  unfold jsTrimL
  rw [jsTrimLeftL_idem]

/-- Every character of the joined line list is a character of some line or
a newline. -/
theorem mem_joinNl : ∀ {M : List (List Char)} {c : Char}, c ∈ joinNl M →
    c = '\n' ∨ ∃ li ∈ M, c ∈ li := by
  intro M
  induction M with
  | nil => intro c h; simp [joinNl] at h
  | cons l ls ih =>
      intro c h
      cases ls with
      | nil =>
          rw [joinNl] at h
          exact Or.inr ⟨l, by simp, h⟩
      | cons m ms =>
          rw [joinNl_cons_ne _ (by simp)] at h
          rcases List.mem_append.1 h with h0 | h0
          · exact Or.inr ⟨l, by simp, h0⟩
          · rcases List.mem_cons.1 h0 with h1 | h1
            · exact Or.inl h1
            · rcases ih h1 with h2 | ⟨li, hli, hc⟩
              · exact Or.inl h2
              · exact Or.inr ⟨li, List.mem_cons_of_mem l hli, hc⟩

theorem mem_joinNl_of_mem {M : List (List Char)} {li : List Char} {c : Char}
    (hli : li ∈ M) (hc : c ∈ li) : c ∈ joinNl M := by
  induction M with
  | nil => simp at hli
  | cons l ls ih =>
      cases ls with
      | nil =>
          rw [List.mem_singleton] at hli
          subst hli
          exact hc
      | cons m ms =>
          rw [joinNl_cons_ne _ (by simp)]
          rcases List.mem_cons.1 hli with h0 | h0
          · subst h0
            exact List.mem_append_left _ hc
          · exact List.mem_append_right _ (List.mem_cons_of_mem _ (ih h0))

theorem joinNl_all_ws {M : List (List Char)}
    (h : ∀ li ∈ M, ∀ c ∈ li, isJsWs c) : ∀ c ∈ joinNl M, isJsWs c := by
  intro c hc
  rcases mem_joinNl hc with h0 | ⟨li, hli, hcl⟩
  · rw [h0]
    rfl
  · exact h li hli c hcl

/-- Trimming a joined block whose tail is all whitespace trims down to the
head line. -/
theorem jsTrimL_append_ws {f J : List Char} (hJ : ∀ c ∈ J, isJsWs c) :
    jsTrimL (f ++ '\n' :: J) = jsTrimL f := by
  have hws : ∀ c ∈ ('\n' :: J), isJsWs c := by
    intro c hc
    rcases List.mem_cons.1 hc with h0 | h0
    · rw [h0]; rfl
    · exact hJ c h0
  by_cases h0 : jsTrimLeftL f = []
  · have hall : ∀ c ∈ f ++ '\n' :: J, isJsWs c := by
      intro c hc
      rcases List.mem_append.1 hc with h1 | h1
      · exact (jsTrimLeftL_eq_nil_iff f).1 h0 c h1
      · exact hws c h1
    unfold jsTrimL
    rw [(jsTrimLeftL_eq_nil_iff _).2 hall, h0]
  · unfold jsTrimL
    rw [jsTrimLeftL_append_ne _ h0, jsTrimRightL_append_all _ hws]

/-- Trimming a joined block whose tail is not all whitespace: the head line
is left-trimmed and the tail right-trimmed. -/
theorem jsTrimL_append_ne {f J : List Char} (hf : jsTrimLeftL f ≠ [])
    (hJ : jsTrimRightL J ≠ []) :
    jsTrimL (f ++ '\n' :: J) = jsTrimLeftL f ++ '\n' :: jsTrimRightL J := by
  have hnl : jsTrimRightL ('\n' :: J) = '\n' :: jsTrimRightL J := by
    rw [show ('\n' :: J : List Char) = ['\n'] ++ J from rfl, jsTrimRightL_append_ne _ hJ]
    rfl
  unfold jsTrimL
  rw [jsTrimLeftL_append_ne _ hf, jsTrimRightL_append_ne _ (by rw [hnl]; simp)]
  rw [hnl]

/-- A pattern beginning with a non-whitespace character survives a left trim. -/
theorem infix_jsTrimLeftL {c0 : Char} {a m : List Char} (hc0 : isJsWs c0 = false) :
    (c0 :: a) <:+: m → (c0 :: a) <:+: jsTrimLeftL m := by
  induction m with
  | nil =>
      intro h
      rw [List.infix_nil] at h
      exact List.noConfusion h
  | cons d ds ih =>
      intro h
      rw [List.infix_cons_iff] at h
      unfold jsTrimLeftL
      by_cases hd : isJsWs d
      · rw [List.dropWhile_cons_of_pos hd]
        rcases h with h0 | h0
        · obtain ⟨t, ht⟩ := h0
          rw [List.cons_append] at ht
          injection ht with h1 _
          exact absurd hd (by rw [← h1]; simp [hc0])
        · exact ih h0
      · rw [List.dropWhile_cons_of_neg hd]
        rw [List.infix_cons_iff]
        exact h

theorem infix_reverse_iff {a m : List Char} : a.reverse <:+: m.reverse ↔ a <:+: m := by
  constructor
  · intro ⟨s, t, h⟩
    refine ⟨t.reverse, s.reverse, ?_⟩
    have := congrArg List.reverse h
    simpa using this
  · intro ⟨s, t, h⟩
    refine ⟨t.reverse, s.reverse, ?_⟩
    rw [← h]
    simp

/-- A pattern ending with a non-whitespace character survives a right trim. -/
theorem infix_jsTrimRightL {c1 : Char} {a m : List Char} (hc1 : isJsWs c1 = false) :
    (a ++ [c1]) <:+: m → (a ++ [c1]) <:+: jsTrimRightL m := by
  intro h
  have hr : (c1 :: a.reverse) <:+: m.reverse := by
    rw [← infix_reverse_iff] at h
    simpa using h
  have := infix_jsTrimLeftL hc1 hr
  rw [← infix_reverse_iff]
  unfold jsTrimRightL
  rw [List.reverse_reverse]
  simpa [jsTrimLeftL] using this

/-- A pattern with non-whitespace first and last characters survives a full
trim. -/
theorem infix_jsTrimL {c0 c1 : Char} {a m : List Char}
    (hc0 : isJsWs c0 = false) (hc1 : isJsWs c1 = false) :
    (c0 :: a ++ [c1]) <:+: m → (c0 :: a ++ [c1]) <:+: jsTrimL m := by
  intro h
  unfold jsTrimL
  exact infix_jsTrimRightL hc1 (by
    have := infix_jsTrimLeftL hc0 (by simpa using h)
    simpa using this)

theorem splitNl_mem_no_nl : ∀ {l : List Char} {li : List Char},
    li ∈ splitNl l → '\n' ∉ li := by
  intro l
  induction l with
  | nil =>
      intro li h
      rw [splitNl, List.mem_singleton] at h
      subst h
      simp
  | cons c cs ih =>
      intro li h
      rw [splitNl] at h
      by_cases hc : c = '\n'
      · rw [if_pos hc] at h
        rcases List.mem_cons.1 h with h0 | h0
        · subst h0; simp
        · exact ih h0
      · rw [if_neg hc] at h
        rcases hs : splitNl cs with _ | ⟨l0, ls⟩
        · exact absurd hs (splitNl_ne_nil cs)
        · rw [hs] at h
          rcases List.mem_cons.1 h with h0 | h0
          · subst h0
            intro hmem
            rcases List.mem_cons.1 hmem with h1 | h1
            · exact hc h1.symm
            · exact ih (by rw [hs]; simp) h1
          · exact ih (by rw [hs]; exact List.mem_cons_of_mem _ h0)

theorem splitNl_no_nl {f : List Char} (h : '\n' ∉ f) : splitNl f = [f] := by
  induction f with
  | nil => rfl
  | cons c cs ih =>
      rw [splitNl, if_neg (fun hc => h (by rw [hc]; simp))]
      rw [ih (fun hm => h (List.mem_cons_of_mem c hm))]

theorem splitNl_append_nl {f : List Char} (rest : List Char) (h : '\n' ∉ f) :
    splitNl (f ++ '\n' :: rest) = f :: splitNl rest := by
  induction f with
  | nil =>
      rw [List.nil_append, splitNl, if_pos rfl]
  | cons c cs ih =>
      rw [List.cons_append, splitNl, if_neg (fun hc => h (by rw [hc]; simp))]
      rw [ih (fun hm => h (List.mem_cons_of_mem c hm))]

theorem splitNl_joinNl : ∀ {L : List (List Char)}, L ≠ [] →
    (∀ li ∈ L, '\n' ∉ li) → splitNl (joinNl L) = L := by
  intro L
  induction L with
  | nil => intro h _; exact absurd rfl h
  | cons l ls ih =>
      intro _ h
      cases ls with
      | nil =>
          rw [joinNl]
          exact splitNl_no_nl (h l (by simp))
      | cons m ms =>
          rw [joinNl_cons_ne _ (by simp)]
          rw [splitNl_append_nl _ (h l (by simp))]
          rw [ih (by simp) (fun li hli => h li (List.mem_cons_of_mem l hli))]

/-- Is a line all whitespace? -/
def allWsLine (l : List Char) : Bool := l.all isJsWs

/-- Right-trim a line list as a block: drop trailing all-whitespace lines
and right-trim the last remaining line. -/
def rtrimLines : List (List Char) → List (List Char)
  | [] => []
  | m :: ms =>
      match rtrimLines ms with
      | [] => if allWsLine m then [] else [jsTrimRightL m]
      | r :: rs => m :: r :: rs

theorem rtrimLines_eq_nil_iff : ∀ {M : List (List Char)},
    rtrimLines M = [] ↔ ∀ m ∈ M, allWsLine m = true := by
  intro M
  induction M with
  | nil => simp [rtrimLines]
  | cons m ms ih =>
      rw [rtrimLines]
      rcases hr : rtrimLines ms with _ | ⟨r, rs⟩
      · rw [hr] at ih
        by_cases hm : allWsLine m
        · rw [if_pos hm]
          constructor
          · intro _ x hx
            rcases List.mem_cons.1 hx with h0 | h0
            · rw [h0]; exact hm
            · exact ih.1 rfl x h0
          · intro _; rfl
        · rw [if_neg hm]
          constructor
          · intro h; exact List.noConfusion h
          · intro h
            exact absurd (h m (by simp)) (by simp [hm])
      · rw [hr] at ih
        constructor
        · intro h
          exact List.noConfusion h
        · intro h
          have := ih.2 (fun x hx => h x (List.mem_cons_of_mem m hx))
          exact List.noConfusion this

theorem rtrimLines_mem : ∀ {M : List (List Char)} {l : List Char},
    l ∈ rtrimLines M → ∃ m ∈ M, l = m ∨ l = jsTrimRightL m := by
  intro M
  induction M with
  | nil => intro l h; simp [rtrimLines] at h
  | cons m ms ih =>
      intro l h
      rw [rtrimLines] at h
      rcases hr : rtrimLines ms with _ | ⟨r, rs⟩
      · rw [hr] at h
        by_cases hm : allWsLine m
        · rw [if_pos hm] at h
          simp at h
        · rw [if_neg hm] at h
          rw [List.mem_singleton] at h
          exact ⟨m, by simp, Or.inr h⟩
      · rw [hr] at h
        rcases List.mem_cons.1 h with h0 | h0
        · exact ⟨m, by simp, Or.inl h0⟩
        · obtain ⟨x, hx, hlx⟩ := ih (by rw [hr]; exact h0)
          exact ⟨x, List.mem_cons_of_mem m hx, hlx⟩

/-- Right-trimming a joined block equals joining the block-level right
trim, provided no line contains a newline. -/
theorem jsTrimRightL_joinNl : ∀ {M : List (List Char)},
    (∀ m ∈ M, '\n' ∉ m) → jsTrimRightL (joinNl M) = joinNl (rtrimLines M) := by
  intro M
  induction M with
  | nil => intro _; rfl
  | cons m ms ih =>
      intro hnl
      rcases hr : rtrimLines ms with _ | ⟨r, rs⟩
      · have hws : ∀ li ∈ ms, allWsLine li = true := rtrimLines_eq_nil_iff.1 hr
        have hJ : ∀ c ∈ joinNl ms, isJsWs c :=
          joinNl_all_ws (fun li hli c hc => by
            have := hws li hli
            rw [allWsLine, List.all_eq_true] at this
            exact this c hc)
        have hjoin : jsTrimRightL (joinNl (m :: ms)) = jsTrimRightL m := by
          cases ms with
          | nil => rw [joinNl]
          | cons x xs =>
              rw [joinNl_cons_ne _ (by simp)]
              rw [jsTrimRightL_append_all _ (by
                intro c hc
                rcases List.mem_cons.1 hc with h0 | h0
                · rw [h0]; rfl
                · exact hJ c h0)]
        rw [hjoin, rtrimLines, hr]
        by_cases hm : allWsLine m
        · rw [if_pos hm]
          rw [(jsTrimRightL_eq_nil_iff m).2 (by
            rw [allWsLine, List.all_eq_true] at hm
            exact hm)]
          rfl
        · rw [if_neg hm, joinNl]
      · have hms : ms ≠ [] := by
          intro h0
          rw [h0] at hr
          exact List.noConfusion hr
        have ihr := ih (fun li hli => hnl li (List.mem_cons_of_mem m hli))
        have hJne : jsTrimRightL (joinNl ms) ≠ [] := by
          intro h0
          have hall := (jsTrimRightL_eq_nil_iff _).1 h0
          have hwsl : ∀ x ∈ ms, allWsLine x = true := by
            intro x hx
            rw [allWsLine, List.all_eq_true]
            intro c hc
            exact hall c (mem_joinNl_of_mem hx hc)
          have hnil := rtrimLines_eq_nil_iff.2 hwsl
          rw [hr] at hnil
          exact List.noConfusion hnil
        have h1 : jsTrimRightL (['\n'] ++ joinNl ms) ≠ [] := by
          rw [jsTrimRightL_append_ne _ hJne]
          simp
        have hrtm : rtrimLines (m :: ms) = m :: r :: rs := by
          rw [rtrimLines, hr]
        rw [hrtm, joinNl_cons_ne _ hms, joinNl_cons_ne _ (List.cons_ne_nil r rs)]
        rw [show (m ++ '\n' :: joinNl ms : List Char) = m ++ (['\n'] ++ joinNl ms) from rfl]
        rw [jsTrimRightL_append_ne _ h1, jsTrimRightL_append_ne _ hJne, ihr, hr]
        rfl

theorem typingAnchor_eq : typingAnchor = 'f' :: "rom typing impor".data ++ ['t'] := by
  decide

theorem classAnchor_eq : classAnchor = 'c' :: "lass Solution".data ++ [':'] := by
  decide

theorem isAnchorLine_jsTrimLeftL {l : List Char} (h : isAnchorLine l = true) :
    isAnchorLine (jsTrimLeftL l) = true := by
  unfold isAnchorLine at h ⊢
  rw [Bool.or_eq_true] at h ⊢
  rw [containsL_iff, containsL_iff] at h ⊢
  rw [typingAnchor_eq, classAnchor_eq] at h ⊢
  rcases h with h | h
  · exact Or.inl (infix_jsTrimLeftL (by decide) h)
  · exact Or.inr (infix_jsTrimLeftL (by decide) h)

theorem isAnchorLine_jsTrimL {l : List Char} (h : isAnchorLine l = true) :
    isAnchorLine (jsTrimL l) = true := by
  unfold isAnchorLine at h ⊢
  rw [Bool.or_eq_true] at h ⊢
  rw [containsL_iff, containsL_iff] at h ⊢
  rw [typingAnchor_eq, classAnchor_eq] at h ⊢
  rcases h with h | h
  · exact Or.inl (infix_jsTrimL (by decide) (by decide) h)
  · exact Or.inr (infix_jsTrimL (by decide) (by decide) h)

theorem isMarkerLine_congr {a b : List Char} (h : jsTrimL a = jsTrimL b) :
    isMarkerLine a = isMarkerLine b := by
  simp only [isMarkerLine, h]

theorem takeUntilMarker_eq_self : ∀ {L : List (List Char)},
    (∀ m ∈ L, isMarkerLine m = false) → takeUntilMarker L = L := by
  intro L
  induction L with
  | nil => intro _; rfl
  | cons l ls ih =>
      intro h
      rw [takeUntilMarker, if_neg (by simp [h l (by simp)])]
      rw [ih (fun m hm => h m (List.mem_cons_of_mem l hm))]

theorem takeUntilMarker_mem : ∀ {L : List (List Char)} {x : List Char},
    x ∈ takeUntilMarker L → x ∈ L ∧ isMarkerLine x = false := by
  intro L
  induction L with
  | nil => intro x h; simp [takeUntilMarker] at h
  | cons l ls ih =>
      intro x h
      rw [takeUntilMarker] at h
      by_cases hl : isMarkerLine l
      · rw [if_pos hl] at h
        simp at h
      · rw [if_neg hl] at h
        rcases List.mem_cons.1 h with h0 | h0
        · subst h0
          exact ⟨by simp, by simpa using hl⟩
        · obtain ⟨h1, h2⟩ := ih h0
          exact ⟨List.mem_cons_of_mem l h1, h2⟩

theorem takeUntilMarker_prefix_self : ∀ (L : List (List Char)), takeUntilMarker L <+: L := by
  intro L
  induction L with
  | nil => exact List.nil_prefix
  | cons l ls ih =>
      rw [takeUntilMarker]
      by_cases hl : isMarkerLine l
      · rw [if_pos hl]
        exact List.nil_prefix
      · rw [if_neg hl]
        exact (List.prefix_cons_inj l).2 ih

theorem findAnchorLines_spec : ∀ {L S : List (List Char)},
    findAnchorLines L = some S →
    (∃ P, L = P ++ S) ∧ ∃ f t, S = f :: t ∧ isAnchorLine f = true := by
  intro L
  induction L with
  | nil => intro S h; exact Option.noConfusion h
  | cons l ls ih =>
      intro S h
      rw [findAnchorLines] at h
      by_cases hl : isAnchorLine l
      · rw [if_pos hl] at h
        injection h with h0
        subst h0
        exact ⟨⟨[], rfl⟩, l, ls, rfl, hl⟩
      · rw [if_neg hl] at h
        obtain ⟨⟨P, hP⟩, hS⟩ := ih h
        exact ⟨⟨l :: P, by rw [hP]; rfl⟩, hS⟩

theorem joinNl_prefix_append : ∀ {A : List (List Char)} (B : List (List Char)),
    A ≠ [] → joinNl A <+: joinNl (A ++ B) := by
  intro A
  induction A with
  | nil => intro B h; exact absurd rfl h
  | cons a as ih =>
      intro B _
      cases B with
      | nil => rw [List.append_nil]
      | cons b bs =>
          cases as with
          | nil =>
              have e2 : joinNl ([a] ++ b :: bs) = a ++ '\n' :: joinNl (b :: bs) :=
                joinNl_cons_ne a (by simp)
              rw [e2, joinNl]
              exact ⟨'\n' :: joinNl (b :: bs), rfl⟩
          | cons a2 as2 =>
              have e1 : joinNl (a :: a2 :: as2) = a ++ '\n' :: joinNl (a2 :: as2) :=
                joinNl_cons_ne a (by simp)
              have e2 : joinNl ((a :: a2 :: as2) ++ b :: bs) =
                  a ++ '\n' :: joinNl ((a2 :: as2) ++ b :: bs) :=
                joinNl_cons_ne a (by simp)
              rw [e1, e2]
              obtain ⟨t, ht⟩ := ih (b :: bs) (by simp)
              refine ⟨t, ?_⟩
              rw [List.append_assoc]
              rw [show ('\n' :: joinNl (a2 :: as2) ++ t : List Char) =
                '\n' :: (joinNl (a2 :: as2) ++ t) from rfl]
              rw [ht]

theorem joinNl_suffix_append : ∀ (A : List (List Char)) {B : List (List Char)},
    B ≠ [] → joinNl B <:+ joinNl (A ++ B) := by
  intro A
  induction A with
  | nil => intro B _; exact List.suffix_refl _
  | cons a as ih =>
      intro B hB
      rw [show ((a :: as) ++ B : List (List Char)) = a :: (as ++ B) from rfl]
      rw [joinNl_cons_ne _ (by
        intro h0
        rcases List.append_eq_nil.1 h0 with ⟨_, h2⟩
        exact hB h2)]
      obtain ⟨s, hs⟩ := ih hB
      exact ⟨a ++ '\n' :: s, by rw [← hs]; simp⟩

theorem anchorSlice_fix {l f : List Char} {t : List (List Char)}
    (hsp : splitNl l = f :: t)
    (hf : isAnchorLine f = true)
    (hm : ∀ m ∈ t, isMarkerLine m = false)
    (hti : jsTrimL l = l) :
    anchorSlice (splitNl l) = some l := by
  have hfa : findAnchorLines (f :: t) = some (f :: t) := by
    rw [findAnchorLines, if_pos hf]
  rw [hsp]
  unfold anchorSlice
  rw [hfa]
  show some (jsTrimL (joinNl (f :: takeUntilMarker t))) = some l
  rw [takeUntilMarker_eq_self hm]
  rw [show joinNl (f :: t) = l from by rw [← hsp, joinNl_splitNl]]
  rw [hti]

/-- Splitting the trimmed anchor-to-marker slice yields an anchored first
line and marker-free tail again. -/
theorem splitNl_trim_slice {f : List Char} {M : List (List Char)}
    (hfnl : '\n' ∉ f) (hMnl : ∀ m ∈ M, '\n' ∉ m)
    (hf : isAnchorLine f = true)
    (hM : ∀ m ∈ M, isMarkerLine m = false) :
    ∃ f' t', splitNl (jsTrimL (joinNl (f :: M))) = f' :: t' ∧
      isAnchorLine f' = true ∧ ∀ m ∈ t', isMarkerLine m = false := by
  by_cases hws : ∀ c ∈ joinNl M, isJsWs c
  · have hE : jsTrimL (joinNl (f :: M)) = jsTrimL f := by
      cases M with
      | nil => rw [joinNl]
      | cons m ms =>
          rw [joinNl_cons_ne _ (by simp)]
          exact jsTrimL_append_ws hws
    rw [hE, splitNl_no_nl (fun h => hfnl (mem_of_mem_jsTrimL h))]
    exact ⟨jsTrimL f, [], rfl, isAnchorLine_jsTrimL hf, by simp⟩
  · have hMne : M ≠ [] := by
      intro h0
      rw [h0] at hws
      exact hws (by intro c hc; simp [joinNl] at hc)
    have hfne : jsTrimLeftL f ≠ [] := by
      intro h0
      have hall := (jsTrimLeftL_eq_nil_iff f).1 h0
      unfold isAnchorLine at hf
      rw [Bool.or_eq_true, containsL_iff, containsL_iff] at hf
      rcases hf with h | h
      · have hc : 'f' ∈ f := h.subset (by rw [typingAnchor_eq]; simp)
        exact absurd (hall _ hc) (by decide)
      · have hc : 'c' ∈ f := h.subset (by rw [classAnchor_eq]; simp)
        exact absurd (hall _ hc) (by decide)
    have hJne : jsTrimRightL (joinNl M) ≠ [] := by
      intro h0
      exact hws ((jsTrimRightL_eq_nil_iff _).1 h0)
    have hE : jsTrimL (joinNl (f :: M)) =
        jsTrimLeftL f ++ '\n' :: jsTrimRightL (joinNl M) := by
      rw [joinNl_cons_ne _ hMne]
      exact jsTrimL_append_ne hfne hJne
    have hR : jsTrimRightL (joinNl M) = joinNl (rtrimLines M) := jsTrimRightL_joinNl hMnl
    have hrne : rtrimLines M ≠ [] := by
      intro h0
      rw [hR, h0] at hJne
      exact hJne rfl
    have hrnl : ∀ x ∈ rtrimLines M, '\n' ∉ x := by
      intro x hx
      obtain ⟨m, hm, hxm⟩ := rtrimLines_mem hx
      rcases hxm with h1 | h1
      · rw [h1]
        exact hMnl m hm
      · rw [h1]
        exact fun hc => hMnl m hm (mem_of_mem_jsTrimRightL hc)
    rw [hE, hR, splitNl_append_nl _ (fun h => hfnl (mem_of_mem_jsTrimLeftL h))]
    rw [splitNl_joinNl hrne hrnl]
    refine ⟨jsTrimLeftL f, rtrimLines M, rfl, isAnchorLine_jsTrimLeftL hf, ?_⟩
    intro x hx
    obtain ⟨m, hm, hxm⟩ := rtrimLines_mem hx
    rcases hxm with h1 | h1
    · rw [h1]
      exact hM m hm
    · rw [h1, isMarkerLine_congr (jsTrimL_jsTrimRightL m)]
      exact hM m hm

/-- A fixed point of `extractCleanCode`: fence-free, trimmed, anchored on
its first line with marker-free remaining lines, still containing
`class Solution:`. -/
theorem extract_fix {y : String}
    (hfence : ¬(fence3 <:+: y.data))
    (hcls : containsL classAnchor y.data = true)
    (hsp : ∃ f t, splitNl y.data = f :: t ∧ isAnchorLine f = true ∧
           ∀ m ∈ t, isMarkerLine m = false)
    (hti : jsTrimL y.data = y.data) :
    extractCleanCode y "python" = y := by
  obtain ⟨f, t, hsp, hf, hm⟩ := hsp
  simp only [extractCleanCode, findClosedBlock_none _ hfence, findOpenBlock_none _ hfence,
    anchorSlice_fix hsp hf hm hti]
  rw [if_pos trivial]
  show (if containsL classAnchor y.data = true then (⟨y.data⟩ : String)
    else cleanOrOriginal y) = y
  rw [if_pos hcls]

/-- **C7.** On fence-free, already-trimmed input, `extractCleanCode` is
idempotent for python: extracting a second time returns the first result
unchanged (spec section 8, extraction stability). -/
theorem C7_extract_idempotent (code : String)
    (hfence : ¬(fence3 <:+: code.data))
    (htrim : jsTrim code = code) :
    extractCleanCode (extractCleanCode code "python") "python"
      = extractCleanCode code "python" := by
  have hco : cleanOrOriginal code = code := by
    unfold cleanOrOriginal
    split_ifs with h
    · exact htrim
    · rfl
  rcases hfa : findAnchorLines (splitNl code.data) with _ | S
  · have ha : anchorSlice (splitNl code.data) = none := by
      unfold anchorSlice
      rw [hfa]
    have he : extractCleanCode code "python" = code := by
      simp only [extractCleanCode, findClosedBlock_none _ hfence, findOpenBlock_none _ hfence,
        ha]
      rw [if_pos trivial]
      exact hco
    rw [he]
    exact he
  · obtain ⟨⟨P, hP⟩, f, rest, hS, hf⟩ := findAnchorLines_spec hfa
    subst hS
    have ha : anchorSlice (splitNl code.data) =
        some (jsTrimL (joinNl (f :: takeUntilMarker rest))) := by
      unfold anchorSlice
      rw [hfa]
    by_cases hclsE : containsL classAnchor (jsTrimL (joinNl (f :: takeUntilMarker rest))) = true
    · have he : extractCleanCode code "python" =
          ⟨jsTrimL (joinNl (f :: takeUntilMarker rest))⟩ := by
        simp only [extractCleanCode, findClosedBlock_none _ hfence,
          findOpenBlock_none _ hfence, ha]
        rw [if_pos trivial]
        show (if containsL classAnchor (jsTrimL (joinNl (f :: takeUntilMarker rest))) = true
          then (⟨jsTrimL (joinNl (f :: takeUntilMarker rest))⟩ : String)
          else cleanOrOriginal code) = ⟨jsTrimL (joinNl (f :: takeUntilMarker rest))⟩
        rw [if_pos hclsE]
      rw [he]
      have hEinf : jsTrimL (joinNl (f :: takeUntilMarker rest)) <:+: code.data := by
        have h1 : jsTrimL (joinNl (f :: takeUntilMarker rest)) <:+:
            joinNl (f :: takeUntilMarker rest) := jsTrimL_infix_self _
        have h2 : joinNl (f :: takeUntilMarker rest) <+: joinNl (f :: rest) := by
          obtain ⟨D, hD⟩ := takeUntilMarker_prefix_self rest
          have hpre := joinNl_prefix_append D (List.cons_ne_nil f (takeUntilMarker rest))
          rw [show ((f :: takeUntilMarker rest) ++ D : List (List Char)) =
            f :: (takeUntilMarker rest ++ D) from rfl, hD] at hpre
          exact hpre
        have h3 : joinNl (f :: rest) <:+ code.data := by
          have hs := joinNl_suffix_append P
            (show (f :: rest : List (List Char)) ≠ [] from by simp)
          rw [← hP, joinNl_splitNl] at hs
          exact hs
        exact h1.trans (h2.isInfix.trans h3.isInfix)
      have hmem : ∀ x ∈ f :: rest, x ∈ splitNl code.data := by
        intro x hx
        rw [hP]
        exact List.mem_append_right P hx
      have hfnl : '\n' ∉ f := splitNl_mem_no_nl (hmem f (by simp))
      have hMnl : ∀ m ∈ takeUntilMarker rest, '\n' ∉ m := by
        intro m hm
        exact splitNl_mem_no_nl
          (hmem m (List.mem_cons_of_mem f (takeUntilMarker_mem hm).1))
      have hM : ∀ m ∈ takeUntilMarker rest, isMarkerLine m = false :=
        fun m hm => (takeUntilMarker_mem hm).2
      exact extract_fix (fun h0 => hfence (h0.trans hEinf)) hclsE
        (splitNl_trim_slice hfnl hMnl hf hM) (jsTrimL_idem _)
    · have he : extractCleanCode code "python" = code := by
        simp only [extractCleanCode, findClosedBlock_none _ hfence,
          findOpenBlock_none _ hfence, ha]
        rw [if_pos trivial]
        show (if containsL classAnchor (jsTrimL (joinNl (f :: takeUntilMarker rest))) = true
          then (⟨jsTrimL (joinNl (f :: takeUntilMarker rest))⟩ : String)
          else cleanOrOriginal code) = code
        rw [if_neg (by simpa using hclsE)]
        exact hco
      rw [he]
      exact he

/-- Witness for C7 at a concrete, already-clean python solution. -/
theorem C7_extract_idempotent_witness :
    extractCleanCode
        (extractCleanCode "class Solution:\n    def f(self): return 1" "python") "python"
      = extractCleanCode "class Solution:\n    def f(self): return 1" "python" :=
  C7_extract_idempotent "class Solution:\n    def f(self): return 1"
    (by decide) (by decide)

/-!
### The reinforcement loop

Shallow embedding of `serve` / `runReinforcementLoop` and its helpers
(source `Reinforcementloop.ts` lines 61-230 and 492-573).  The Supabase
tables touched by the function are modelled as an explicit `Db` value;
the two external effects of an iteration (`generateSolutionWithContext`
and `testGeneratedSolution`, either of which can throw into the `catch`)
are an input `outcomes : ℕ → AttemptOutcome` indexed by attempt number.
Timing fields, console output, the `updates` stream and presentation-only
strings (`changes_made`, `improvement_summary`) are not modelled.
-/

inductive SessionStatus
  | in_progress
  | solved
  | max_attempts_reached
deriving DecidableEq

/-- A `reinforcement_sessions` row (the fields the loop reads/writes). -/
structure Session where
  status : SessionStatus
  best_success_rate : ℚ
  total_attempts : ℕ
  max_attempts : ℕ
deriving DecidableEq

/-- What `generateSolutionWithContext` returns (source lines 232-330). -/
structure GeneratedSolution where
  code : String
  reasoning : String
  explanation : String
  full_response : String
deriving DecidableEq

/-- A `solution_attempts` row (source lines 496-508). -/
structure StoredAttempt where
  attempt_number : ℕ
  generated_code : String
  reasoning_content : String
  success_rate : ℚ
  failed_test_cases : List TestRecord
  error_messages : List String
deriving DecidableEq

/-- An `improvement_logs` row (source lines 520-528); the `changes_made`
presentation string (built with `toFixed`) is not modelled. -/
structure ImprovementLog where
  from_attempt : ℕ
  to_attempt : ℕ
  improvement_strategy : String
deriving DecidableEq

/-- The three tables the loop touches. -/
structure Db where
  session : Session
  attempts : List StoredAttempt
  logs : List ImprovementLog
deriving DecidableEq

/-- JS truthiness of the optional `error` field of a test record
(`.filter((t) => t.error)`): present and non-empty. -/
def errTruthy (t : TestRecord) : Bool :=
  match t.error with
  | some s => !(s == "")
  | none => false

/-- `storeSolutionAttempt` (source lines 492-513): append one row. -/
def storeSolutionAttempt (db : Db) (attemptNumber : ℕ)
    (solution : GeneratedSolution) (testResults : TestReport) : Db :=
  { db with attempts := db.attempts ++
      [{ attempt_number := attemptNumber
         generated_code := solution.code
         reasoning_content := solution.reasoning
         success_rate := testResults.success_rate
         failed_test_cases := testResults.test_results.filter (fun t => !t.passed)
         error_messages := (testResults.test_results.filter errTruthy).map
           (fun t => t.error.getD "") }] }

/-- `logImprovement` (source lines 515-529): append one row tagged by
`determineImprovementStrategy`. -/
def logImprovement (db : Db) (fromAttempt toAttempt : ℕ)
    (newSuccessRate oldSuccessRate : ℚ) : Db :=
  { db with logs := db.logs ++
      [{ from_attempt := fromAttempt
         to_attempt := toAttempt
         improvement_strategy :=
           determineImprovementStrategy (newSuccessRate - oldSuccessRate)
             newSuccessRate }] }

/-- The loop's mutable state: the database, `currentAttempt` and
`bestSuccessRate` (source lines 117-119). -/
structure LoopState where
  db : Db
  currentAttempt : ℕ
  bestSuccessRate : ℚ
deriving DecidableEq

/-- The externally visible result of one attempt's generation and testing,
either of which can throw into the iteration's `catch` (lines 181-184). -/
inductive AttemptOutcome
  | err
  | ok (solution : GeneratedSolution) (testResults : TestReport)

/-- One iteration of the `while` body (source lines 127-184), given the
entry `session` object (whose in-memory fields are never refreshed after
line 116).  Returns the new state and whether the loop breaks. -/
def loopIter (entry : Session) (outcome : AttemptOutcome) (st : LoopState) :
    LoopState × Bool :=
  match outcome with
  | .err => (⟨st.db, st.currentAttempt + 1, st.bestSuccessRate⟩, false)
  | .ok sol res =>
      let db1 := storeSolutionAttempt st.db st.currentAttempt sol res
      let improved := res.success_rate > st.bestSuccessRate
      let best1 := if improved then res.success_rate else st.bestSuccessRate
      let db2 :=
        if improved ∧ st.currentAttempt > 1 then
          logImprovement db1 (st.currentAttempt - 1) st.currentAttempt
            res.success_rate entry.best_success_rate
        else db1
      let db3 : Db :=
        { db2 with session :=
            { db2.session with
                total_attempts := st.currentAttempt
                best_success_rate := best1
                status := if res.success_rate = 100 then .solved
                          else .in_progress } }
      if res.success_rate = 100 then
        (⟨{ db3 with session := { db3.session with status := .solved } },
          st.currentAttempt, best1⟩, true)
      else
        (⟨db3, st.currentAttempt + 1, best1⟩, false)

/-- The `while currentAttempt <= session.max_attempts` loop (lines
123-185), fuel-indexed; every non-breaking iteration increments
`currentAttempt`, so `max_attempts + 1` fuel always suffices from an
attempt number of at least 1. -/
def runLoopFuel (entry : Session) (outcomes : ℕ → AttemptOutcome) :
    ℕ → LoopState → LoopState
  | 0, st => st
  | fuel + 1, st =>
      if st.currentAttempt ≤ entry.max_attempts then
        match loopIter entry (outcomes st.currentAttempt) st with
        | (st', true) => st'
        | (st', false) => runLoopFuel entry outcomes fuel st'
      else st

/-- The `latest_solution` payload of the response (lines 564-569). -/
structure LatestSolution where
  code : String
  reasoning : String
  success_rate : ℚ
  test_results : List TestRecord
deriving DecidableEq

/-- The auto-mode `final_solution` payload (lines 221-225). -/
structure FinalSolution where
  code : String
  reasoning : String
  success_rate : ℚ
deriving DecidableEq

/-- The modelled fields of `ReinforcementResponse` (source lines 18-35);
identifiers, timing, `updates` and `improvement_summary` are omitted. -/
structure ReinforcementResponse where
  status : SessionStatus
  current_attempt : ℕ
  best_success_rate : ℚ
  latest_solution : LatestSolution
  final_success_rate : Option ℚ
  total_attempts : Option ℕ
  final_solution : Option FinalSolution
deriving DecidableEq

/-- The `order by attempt_number desc limit 1 single` query (lines
541-547): the stored attempt with the highest ordinal.  Ordinals are
unique per session; on duplicates the model keeps the later row. -/
def latestAttempt : List StoredAttempt → Option StoredAttempt
  | [] => none
  | a :: rest =>
      match latestAttempt rest with
      | none => some a
      | some b => if b.attempt_number ≥ a.attempt_number then some b else some a

/-- `buildResponse` (source lines 539-573).  The JS `|| default`s only
fire when no attempt row exists: for a present row, `x || ''`, `x || 0`
and `x || []` all return `x` itself. -/
def buildResponse (db : Db) (session : Session) : ReinforcementResponse :=
  let la := latestAttempt db.attempts
  { status := session.status
    current_attempt := session.total_attempts
    best_success_rate := session.best_success_rate
    latest_solution :=
      { code := (la.map (fun a => a.generated_code)).getD ""
        reasoning := (la.map (fun a => a.reasoning_content)).getD ""
        success_rate := (la.map (fun a => a.success_rate)).getD 0
        test_results := (la.map (fun a => a.failed_test_cases)).getD [] }
    final_success_rate := none
    total_attempts := none
    final_solution := none }

/-- `runReinforcementLoop` (source lines 116-230). -/
def runReinforcementLoop (db : Db) (outcomes : ℕ → AttemptOutcome) :
    Db × ReinforcementResponse :=
  let session := db.session
  let stF := runLoopFuel session outcomes (session.max_attempts + 1)
      ⟨db, session.total_attempts + 1, session.best_success_rate⟩
  let dbF :=
    if stF.currentAttempt > session.max_attempts then
      { stF.db with session :=
          { stF.db.session with status := .max_attempts_reached } }
    else stF.db
  let resp0 := buildResponse dbF
      { session with
          total_attempts := stF.currentAttempt - 1
          best_success_rate := stF.bestSuccessRate }
  let resp1 := { resp0 with
      final_success_rate := some stF.bestSuccessRate
      total_attempts := some (stF.currentAttempt - 1) }
  let resp2 :=
    if stF.bestSuccessRate > 0 then
      match latestAttempt dbF.attempts with
      | some la =>
          let fs : FinalSolution :=
            ⟨la.generated_code, la.reasoning_content, la.success_rate⟩
          { resp1 with final_solution := some fs }
      | none => resp1
    else resp1
  (dbF, resp2)

/-- The session-level dispatch of `serve` (source lines 61-76): terminal
sessions short-circuit to `buildResponse` without running the loop. -/
def handleRun (db : Db) (outcomes : ℕ → AttemptOutcome) :
    Db × ReinforcementResponse :=
  if db.session.status = .solved ∨ db.session.status = .max_attempts_reached then
    (db, buildResponse db db.session)
  else
    runReinforcementLoop db outcomes

/-- A test report carrying only a success rate (the loop reads nothing
else of it besides `test_results`, empty here). -/
def mkReport (rate : ℚ) : TestReport := ⟨rate, 0, 0, 0, [], "ok"⟩

def mkSol (c : String) : GeneratedSolution := ⟨c, "", "", ""⟩

/-- The C1 scenario's attempt outcomes: 40%, 40%, 100%. -/
def c1Outcomes : ℕ → AttemptOutcome
  | 1 => .ok (mkSol "a1") (mkReport 40)
  | 2 => .ok (mkSol "a2") (mkReport 40)
  | 3 => .ok (mkSol "a3") (mkReport 100)
  | _ => .err

/-- A solved session holding a 60%-scoring attempt 1 and a 40%-scoring
attempt 2. -/
def c2Db : Db :=
  ⟨⟨.solved, 60, 2, 3⟩,
   [⟨1, "solA", "", 60, [], []⟩, ⟨2, "solB", "", 40, [], []⟩], []⟩

def c3Outcomes : ℕ → AttemptOutcome
  | 1 => .ok (mkSol "c") (mkReport 50)
  | _ => .err

/-- A single 40%-scoring attempt (for the C4 witness). -/
def c3Outcomes4 : ℕ → AttemptOutcome
  | 1 => .ok (mkSol "d") (mkReport 40)
  | _ => .err

theorem latestAttempt_eq_none : ∀ {l : List StoredAttempt},
    latestAttempt l = none ↔ l = [] := by
  intro l
  cases l with
  | nil => simp [latestAttempt]
  | cons a rest =>
      rw [latestAttempt]
      constructor
      · intro h
        rcases h0 : latestAttempt rest with _ | b
        · simp only [h0] at h
          exact Option.noConfusion h
        · simp only [h0] at h
          by_cases hb : b.attempt_number ≥ a.attempt_number
          · rw [if_pos hb] at h
            exact Option.noConfusion h
          · rw [if_neg hb] at h
            exact Option.noConfusion h
      · intro h
        exact List.noConfusion h

theorem latestAttempt_spec : ∀ {l : List StoredAttempt} {la : StoredAttempt},
    latestAttempt l = some la →
    la ∈ l ∧ ∀ a ∈ l, a.attempt_number ≤ la.attempt_number := by
  intro l
  induction l with
  | nil => intro la h; exact Option.noConfusion h
  | cons a rest ih =>
      intro la h
      rw [latestAttempt] at h
      rcases h0 : latestAttempt rest with _ | b
      · simp only [h0] at h
        injection h with h1
        subst h1
        have hrest := latestAttempt_eq_none.1 h0
        subst hrest
        exact ⟨by simp, by simp⟩
      · simp only [h0] at h
        obtain ⟨hmem, hbound⟩ := ih h0
        by_cases hb : b.attempt_number ≥ a.attempt_number
        · rw [if_pos hb] at h
          injection h with h1
          subst h1
          refine ⟨List.mem_cons_of_mem a hmem, ?_⟩
          intro x hx
          rcases List.mem_cons.1 hx with h2 | h2
          · rw [h2]
            exact hb
          · exact hbound x h2
        · rw [if_neg hb] at h
          injection h with h1
          subst h1
          refine ⟨by simp, ?_⟩
          intro x hx
          rcases List.mem_cons.1 hx with h2 | h2
          · rw [h2]
          · exact le_trans (hbound x h2) (le_of_not_le hb)

theorem runReinforcementLoop_fst (db : Db) (outcomes : ℕ → AttemptOutcome) :
    (runReinforcementLoop db outcomes).1 =
      (if (runLoopFuel db.session outcomes (db.session.max_attempts + 1)
            ⟨db, db.session.total_attempts + 1,
              db.session.best_success_rate⟩).currentAttempt
          > db.session.max_attempts then
        { (runLoopFuel db.session outcomes (db.session.max_attempts + 1)
            ⟨db, db.session.total_attempts + 1,
              db.session.best_success_rate⟩).db with session :=
          { (runLoopFuel db.session outcomes (db.session.max_attempts + 1)
              ⟨db, db.session.total_attempts + 1,
                db.session.best_success_rate⟩).db.session with
              status := .max_attempts_reached } }
      else (runLoopFuel db.session outcomes (db.session.max_attempts + 1)
            ⟨db, db.session.total_attempts + 1,
              db.session.best_success_rate⟩).db) := rfl

theorem loopIter_err (entry : Session) (st : LoopState) :
    loopIter entry .err st =
      (⟨st.db, st.currentAttempt + 1, st.bestSuccessRate⟩, false) := rfl

theorem loopIter_ok_100 (entry : Session) (st : LoopState)
    (sol : GeneratedSolution) (res : TestReport) (h100 : res.success_rate = 100) :
    (loopIter entry (.ok sol res) st).2 = true ∧
    (loopIter entry (.ok sol res) st).1.currentAttempt = st.currentAttempt ∧
    (loopIter entry (.ok sol res) st).1.db.session.status = .solved ∧
    (loopIter entry (.ok sol res) st).1.db.session.total_attempts
      = st.currentAttempt ∧
    (loopIter entry (.ok sol res) st).1.db.session.max_attempts
      = st.db.session.max_attempts := by
  simp only [loopIter, if_pos h100]
  split_ifs <;>
    simp [storeSolutionAttempt, logImprovement]

theorem loopIter_ok_not100 (entry : Session) (st : LoopState)
    (sol : GeneratedSolution) (res : TestReport) (h100 : res.success_rate ≠ 100) :
    (loopIter entry (.ok sol res) st).2 = false ∧
    (loopIter entry (.ok sol res) st).1.currentAttempt = st.currentAttempt + 1 ∧
    (loopIter entry (.ok sol res) st).1.db.session.status = .in_progress ∧
    (loopIter entry (.ok sol res) st).1.db.session.total_attempts
      = st.currentAttempt ∧
    (loopIter entry (.ok sol res) st).1.db.session.max_attempts
      = st.db.session.max_attempts := by
  simp only [loopIter, if_neg h100]
  split_ifs <;>
    simp [storeSolutionAttempt, logImprovement, h100]

theorem runLoopFuel_step (entry : Session) (outcomes : ℕ → AttemptOutcome)
    (fuel : ℕ) (st : LoopState) (hg : st.currentAttempt ≤ entry.max_attempts) :
    runLoopFuel entry outcomes (fuel + 1) st =
      (if (loopIter entry (outcomes st.currentAttempt) st).2 = true
       then (loopIter entry (outcomes st.currentAttempt) st).1
       else runLoopFuel entry outcomes fuel
              (loopIter entry (outcomes st.currentAttempt) st).1) := by
  rw [runLoopFuel, if_pos hg]
  rcases hli : loopIter entry (outcomes st.currentAttempt) st with ⟨st1, br⟩
  simp only [hli]
  cases br <;> simp

theorem runLoopFuel_status_ne (entry : Session) (outcomes : ℕ → AttemptOutcome) :
    ∀ (fuel : ℕ) (st : LoopState),
      st.db.session.status ≠ .max_attempts_reached →
      (runLoopFuel entry outcomes fuel st).db.session.status
        ≠ .max_attempts_reached := by
  intro fuel
  induction fuel with
  | zero => intro st h; exact h
  | succ fuel ih =>
      intro st h
      by_cases hg : st.currentAttempt ≤ entry.max_attempts
      · rw [runLoopFuel_step entry outcomes fuel st hg]
        rcases ho : outcomes st.currentAttempt with _ | ⟨sol, res⟩
        · rw [loopIter_err]
          rw [if_neg (by simp)]
          exact ih _ h
        · by_cases h100 : res.success_rate = 100
          · obtain ⟨hbr, _, hstat, _, _⟩ := loopIter_ok_100 entry st sol res h100
            rw [hbr, if_pos rfl, hstat]
            simp
          · obtain ⟨hbr, _, hstat, _, _⟩ := loopIter_ok_not100 entry st sol res h100
            rw [hbr, if_neg (by simp)]
            apply ih
            rw [hstat]
            simp
      · rw [runLoopFuel, if_neg hg]
        exact h

theorem runLoopFuel_total_le (entry : Session) (outcomes : ℕ → AttemptOutcome) :
    ∀ (fuel : ℕ) (st : LoopState),
      st.db.session.total_attempts ≤ entry.max_attempts →
      (runLoopFuel entry outcomes fuel st).db.session.total_attempts
        ≤ entry.max_attempts := by
  intro fuel
  induction fuel with
  | zero => intro st h; exact h
  | succ fuel ih =>
      intro st h
      by_cases hg : st.currentAttempt ≤ entry.max_attempts
      · rw [runLoopFuel_step entry outcomes fuel st hg]
        rcases ho : outcomes st.currentAttempt with _ | ⟨sol, res⟩
        · rw [loopIter_err]
          rw [if_neg (by simp)]
          exact ih _ h
        · by_cases h100 : res.success_rate = 100
          · obtain ⟨hbr, _, _, htot, _⟩ := loopIter_ok_100 entry st sol res h100
            rw [hbr, if_pos rfl, htot]
            exact hg
          · obtain ⟨hbr, _, _, htot, _⟩ := loopIter_ok_not100 entry st sol res h100
            rw [hbr, if_neg (by simp)]
            apply ih
            rw [htot]
            exact hg
      · rw [runLoopFuel, if_neg hg]
        exact h

theorem runLoopFuel_no100 (entry : Session) (outcomes : ℕ → AttemptOutcome) :
    ∀ (fuel : ℕ) (st : LoopState),
      (runLoopFuel entry outcomes fuel st).currentAttempt > entry.max_attempts →
      ∀ k sol res, st.currentAttempt ≤ k → k ≤ entry.max_attempts →
        outcomes k = .ok sol res → res.success_rate ≠ 100 := by
  intro fuel
  induction fuel with
  | zero =>
      intro st hgt k sol res hk1 hk2 _
      rw [runLoopFuel] at hgt
      omega
  | succ fuel ih =>
      intro st hgt k sol res hk1 hk2 hok
      by_cases hg : st.currentAttempt ≤ entry.max_attempts
      · rw [runLoopFuel_step entry outcomes fuel st hg] at hgt
        rcases ho : outcomes st.currentAttempt with _ | ⟨sol0, res0⟩
        · rw [ho, loopIter_err, if_neg (by simp)] at hgt
          rcases Nat.lt_or_ge st.currentAttempt k with hlt | hge
          · exact ih _ hgt k sol res hlt hk2 hok
          · have hkc : k = st.currentAttempt := le_antisymm (by omega) hk1
            rw [hkc, ho] at hok
            exact AttemptOutcome.noConfusion hok
        · by_cases h100 : res0.success_rate = 100
          · obtain ⟨hbr, hcur, _, _, _⟩ := loopIter_ok_100 entry st sol0 res0 h100
            rw [ho, hbr, if_pos rfl, hcur] at hgt
            omega
          · obtain ⟨hbr, hcur, _, _, _⟩ := loopIter_ok_not100 entry st sol0 res0 h100
            rw [ho, hbr, if_neg (by simp)] at hgt
            rcases Nat.lt_or_ge st.currentAttempt k with hlt | hge
            · refine ih _ hgt k sol res ?_ hk2 hok
              rw [hcur]
              omega
            · have hkc : k = st.currentAttempt := le_antisymm (by omega) hk1
              rw [hkc, ho] at hok
              injection hok with _ h2
              rw [← h2]
              exact h100
      · rw [runLoopFuel, if_neg hg] at hgt
        omega

theorem runLoopFuel_total_exhaust (entry : Session) (outcomes : ℕ → AttemptOutcome) :
    ∀ (fuel : ℕ) (st : LoopState),
      st.db.session.total_attempts + 1 = st.currentAttempt →
      st.currentAttempt ≤ entry.max_attempts + 1 →
      entry.max_attempts + 1 ≤ fuel + st.currentAttempt →
      (runLoopFuel entry outcomes fuel st).currentAttempt > entry.max_attempts →
      (∀ k, st.currentAttempt ≤ k → k ≤ entry.max_attempts → outcomes k ≠ .err) →
      (runLoopFuel entry outcomes fuel st).db.session.total_attempts
        = entry.max_attempts := by
  intro fuel
  induction fuel with
  | zero =>
      intro st hinv hcle hfuel hgt _
      rw [runLoopFuel] at hgt ⊢
      omega
  | succ fuel ih =>
      intro st hinv hcle hfuel hgt hok
      by_cases hg : st.currentAttempt ≤ entry.max_attempts
      · rw [runLoopFuel_step entry outcomes fuel st hg] at hgt ⊢
        rcases ho : outcomes st.currentAttempt with _ | ⟨sol0, res0⟩
        · exact absurd ho (hok st.currentAttempt le_rfl hg)
        · by_cases h100 : res0.success_rate = 100
          · obtain ⟨hbr, hcur, _, _, _⟩ := loopIter_ok_100 entry st sol0 res0 h100
            rw [ho, hbr, if_pos rfl, hcur] at hgt
            omega
          · obtain ⟨hbr, hcur, _, htot, _⟩ := loopIter_ok_not100 entry st sol0 res0 h100
            rw [ho, hbr, if_neg (by simp)] at hgt
            rw [hbr, if_neg (by simp)]
            refine ih _ ?_ ?_ ?_ hgt ?_
            · rw [hcur, htot]
            · rw [hcur]
              omega
            · rw [hcur]
              omega
            · intro k hk1 hk2
              refine hok k ?_ hk2
              rw [hcur] at hk1
              omega
      · rw [runLoopFuel, if_neg hg] at hgt ⊢
        omega
/-- **C1.** The spec scenario (section 8): a fresh session with attempt
budget 3 whose attempts score 40%, 40% and 100% ends with stored status
`solved`, stored attempts-consumed 3, and exactly one improvement-log row,
tagged `problem_solved`, from attempt 2 to attempt 3.  (The first
improving attempt, attempt 1, is not logged, and attempt 2 does not
improve.) -/
theorem C1_scenario :
    (handleRun ⟨⟨.in_progress, 0, 0, 3⟩, [], []⟩ c1Outcomes).1.session.status
        = .solved ∧
    (handleRun ⟨⟨.in_progress, 0, 0, 3⟩, [], []⟩
        c1Outcomes).1.session.total_attempts = 3 ∧
    (handleRun ⟨⟨.in_progress, 0, 0, 3⟩, [], []⟩ c1Outcomes).1.logs
        = [⟨2, 3, "problem_solved"⟩] := by
  refine ⟨rfl, rfl, ?_⟩
  show [⟨2, 3, determineImprovementStrategy ((100 : ℚ) - 0) 100⟩]
      = [(⟨2, 3, "problem_solved"⟩ : ImprovementLog)]
  rw [show determineImprovementStrategy ((100 : ℚ) - 0) 100 = "problem_solved" from
    by rw [determineImprovementStrategy, if_pos rfl]]

/-- **C2 counterexample.** Resuming the solved session `c2Db` (attempt 1
scored 60%, attempt 2 scored 40%) returns attempt 2 — the latest by
ordinal — as `latest_solution`, not the best-scoring attempt: a stored
attempt strictly beats the reported one. -/
theorem C2_counterexample :
    (handleRun c2Db (fun _ => .err)).2.latest_solution.success_rate = 40 ∧
    (handleRun c2Db (fun _ => .err)).1 = c2Db ∧
    ∃ a ∈ (handleRun c2Db (fun _ => .err)).1.attempts,
      (handleRun c2Db (fun _ => .err)).2.latest_solution.success_rate
        < a.success_rate := by
  refine ⟨rfl, rfl, ⟨1, "solA", "", 60, [], []⟩, by simp [c2Db, handleRun, buildResponse], ?_⟩
  show (40 : ℚ) < 60
  decide

/-- **C2 (corrected).** On a terminal session the run short-circuits: the
database is returned unchanged (no new attempt row) and `latest_solution`
renders the stored attempt with the highest ordinal — not the
best-scoring one — or empty defaults if no attempt exists. -/
theorem C2_latest_solution (db : Db) (outcomes : ℕ → AttemptOutcome)
    (hterm : db.session.status = .solved ∨
      db.session.status = .max_attempts_reached) :
    (handleRun db outcomes).1 = db ∧
    ((db.attempts = [] ∧
        (handleRun db outcomes).2.latest_solution = ⟨"", "", 0, []⟩) ∨
      ∃ la, latestAttempt db.attempts = some la ∧ la ∈ db.attempts ∧
        (∀ a ∈ db.attempts, a.attempt_number ≤ la.attempt_number) ∧
        (handleRun db outcomes).2.latest_solution =
          ⟨la.generated_code, la.reasoning_content, la.success_rate,
            la.failed_test_cases⟩) := by
  have hh : handleRun db outcomes = (db, buildResponse db db.session) := by
    unfold handleRun
    rw [if_pos hterm]
  rw [hh]
  refine ⟨rfl, ?_⟩
  rcases hla : latestAttempt db.attempts with _ | la
  · left
    refine ⟨latestAttempt_eq_none.1 hla, ?_⟩
    simp [buildResponse, hla]
  · right
    obtain ⟨hmem, hbound⟩ := latestAttempt_spec hla
    refine ⟨la, rfl, hmem, hbound, ?_⟩
    simp [buildResponse, hla]

/-- Witness for C2 at the concrete terminal session `c2Db`. -/
theorem C2_latest_solution_witness :
    (handleRun c2Db (fun _ => .err)).1 = c2Db ∧
    ((c2Db.attempts = [] ∧
        (handleRun c2Db (fun _ => .err)).2.latest_solution = ⟨"", "", 0, []⟩) ∨
      ∃ la, latestAttempt c2Db.attempts = some la ∧ la ∈ c2Db.attempts ∧
        (∀ a ∈ c2Db.attempts, a.attempt_number ≤ la.attempt_number) ∧
        (handleRun c2Db (fun _ => .err)).2.latest_solution =
          ⟨la.generated_code, la.reasoning_content, la.success_rate,
            la.failed_test_cases⟩) :=
  C2_latest_solution c2Db (fun _ => .err) (Or.inl rfl)

/-- **C3 counterexample.** A fresh one-attempt session whose only attempt
scores 50% stores an attempt that strictly exceeds every prior score
(the initial best of 0), yet no improvement-log row is created: the
`currentAttempt > 1` guard suppresses logging of first-attempt
improvements. -/
theorem C3_counterexample :
    (handleRun ⟨⟨.in_progress, 0, 0, 1⟩, [], []⟩ c3Outcomes).1.logs = [] ∧
    ∃ a ∈ (handleRun ⟨⟨.in_progress, 0, 0, 1⟩, [], []⟩ c3Outcomes).1.attempts,
      a.success_rate > 0 := by
  refine ⟨rfl, ?_⟩
  refine ⟨⟨1, "c", "", 50, [], []⟩, ?_, ?_⟩
  · show _ ∈ [(⟨1, "c", "", 50, [], []⟩ : StoredAttempt)]
    simp
  · show (0 : ℚ) < 50
    decide

/-- **C3 (corrected).** A loop iteration appends an improvement-log row
if and only if the attempt succeeded with a success rate strictly above
the running best *and* its ordinal exceeds 1; the appended row spans
`currentAttempt - 1 → currentAttempt` and is tagged by
`determineImprovementStrategy` fed the difference to the *entry*
session's best rate (not the running best). -/
theorem C3_improvement_logs (entry : Session) (outcome : AttemptOutcome)
    (st : LoopState) :
    ((loopIter entry outcome st).1.db.logs = st.db.logs ∧
      ¬∃ sol res, outcome = .ok sol res ∧
        res.success_rate > st.bestSuccessRate ∧ st.currentAttempt > 1) ∨
    (∃ sol res, outcome = .ok sol res ∧
      res.success_rate > st.bestSuccessRate ∧ st.currentAttempt > 1 ∧
      (loopIter entry outcome st).1.db.logs = st.db.logs ++
        [⟨st.currentAttempt - 1, st.currentAttempt,
          determineImprovementStrategy
            (res.success_rate - entry.best_success_rate) res.success_rate⟩]) := by
  cases outcome with
  | err =>
      left
      refine ⟨rfl, ?_⟩
      rintro ⟨sol, res, heq, -⟩
      exact AttemptOutcome.noConfusion heq
  | ok sol res =>
      by_cases himp : res.success_rate > st.bestSuccessRate ∧ st.currentAttempt > 1
      · right
        refine ⟨sol, res, rfl, himp.1, himp.2, ?_⟩
        simp only [loopIter, if_pos himp]
        split_ifs <;>
          simp [storeSolutionAttempt, logImprovement]
      · left
        constructor
        · simp only [loopIter, if_neg himp]
          split_ifs <;>
            simp [storeSolutionAttempt]
        · rintro ⟨sol0, res0, heq, h1, h2⟩
          injection heq with he1 he2
          subst he2
          exact himp ⟨h1, h2⟩

/-- **C4 counterexample.** A fresh one-attempt session whose only attempt
throws ends with status `max_attempts_reached`, but its stored
attempts-consumed is still 0, not the attempt budget 1: the catch branch
advances the ordinal without ever updating the session row's
`total_attempts`. -/
theorem C4_counterexample :
    (handleRun ⟨⟨.in_progress, 0, 0, 1⟩, [], []⟩
        (fun _ => .err)).1.session.status = .max_attempts_reached ∧
    (handleRun ⟨⟨.in_progress, 0, 0, 1⟩, [], []⟩
        (fun _ => .err)).1.session.total_attempts = 0 ∧
    (handleRun ⟨⟨.in_progress, 0, 0, 1⟩, [], []⟩
        (fun _ => .err)).1.session.max_attempts = 1 := by
  refine ⟨rfl, rfl, rfl⟩

/-- **C4 (corrected).** When a run from an in-progress session ends with
status `max_attempts_reached`: the stored attempts-consumed never exceeds
the budget, no successfully evaluated attempt of the run scored 100, and
— only when no attempt of the run threw — attempts-consumed equals the
budget.  (A thrown attempt consumes its ordinal in the loop counter but
is never written back, so attempts-consumed can fall short of the
budget.) -/
theorem C4_max_attempts (db : Db) (outcomes : ℕ → AttemptOutcome)
    (hstat : db.session.status = .in_progress)
    (hle : db.session.total_attempts ≤ db.session.max_attempts)
    (hmax : (handleRun db outcomes).1.session.status = .max_attempts_reached) :
    (handleRun db outcomes).1.session.total_attempts
        ≤ db.session.max_attempts ∧
    (∀ k sol res, db.session.total_attempts + 1 ≤ k →
      k ≤ db.session.max_attempts →
      outcomes k = .ok sol res → res.success_rate ≠ 100) ∧
    ((∀ k, db.session.total_attempts + 1 ≤ k → k ≤ db.session.max_attempts →
        outcomes k ≠ .err) →
      (handleRun db outcomes).1.session.total_attempts
        = db.session.max_attempts) := by
  have hnt : ¬(db.session.status = .solved ∨
      db.session.status = .max_attempts_reached) := by
    rw [hstat]
    rintro (h | h) <;> exact SessionStatus.noConfusion h
  have hh : handleRun db outcomes = runReinforcementLoop db outcomes := by
    unfold handleRun
    rw [if_neg hnt]
  rw [hh] at hmax ⊢
  rw [runReinforcementLoop_fst] at hmax ⊢
  by_cases hgt : (runLoopFuel db.session outcomes (db.session.max_attempts + 1)
      ⟨db, db.session.total_attempts + 1,
        db.session.best_success_rate⟩).currentAttempt > db.session.max_attempts
  · rw [if_pos hgt] at hmax ⊢
    refine ⟨?_, ?_, ?_⟩
    · exact runLoopFuel_total_le db.session outcomes _ _ hle
    · intro k sol res hk1 hk2 hok
      exact runLoopFuel_no100 db.session outcomes _ _ hgt k sol res hk1 hk2 hok
    · intro hok
      refine runLoopFuel_total_exhaust db.session outcomes _ _ rfl ?_ ?_ hgt hok
      · show db.session.total_attempts + 1 ≤ db.session.max_attempts + 1
        omega
      · show db.session.max_attempts + 1 ≤
          db.session.max_attempts + 1 + (db.session.total_attempts + 1)
        omega
  · rw [if_neg hgt] at hmax
    exact absurd hmax (runLoopFuel_status_ne db.session outcomes _ _ (by
      show db.session.status ≠ .max_attempts_reached
      rw [hstat]
      exact fun h => SessionStatus.noConfusion h))

/-- Witness for C4: a budget-1 session whose single attempt scores 40%. -/
theorem C4_max_attempts_witness :
    (handleRun ⟨⟨.in_progress, 0, 0, 1⟩, [], []⟩ c3Outcomes4).1.session.total_attempts
        ≤ (1 : ℕ) ∧
    (∀ k sol res, 1 ≤ k → k ≤ 1 →
      c3Outcomes4 k = .ok sol res → res.success_rate ≠ 100) ∧
    ((∀ k, 1 ≤ k → k ≤ 1 → c3Outcomes4 k ≠ .err) →
      (handleRun ⟨⟨.in_progress, 0, 0, 1⟩, [], []⟩
          c3Outcomes4).1.session.total_attempts = 1) :=
  C4_max_attempts ⟨⟨.in_progress, 0, 0, 1⟩, [], []⟩ c3Outcomes4 rfl
    (by decide) rfl

end Codegen
